import Mathlib

/-!
Verification of the protobuf wire-format codec library (`pbcodec`).

The repository ships its codec engine behind `bytecodec`-style futures; the
sources available here contain the trait layer (`traits.rs`), the scalar
decoder table (`decode/types.rs`) and the test suite (`lib.rs`) with exact
wire-format byte vectors.  The byte-level codec engine is therefore modelled
from the specification document (each such definition carries a doc comment
starting with `Modelled from the spec:`), and the concrete byte vectors of
the in-repo tests are re-established against the model.

Bytes are modelled as natural numbers (real bytes are `< 256`); machine
integers are modelled as `Nat`/`Int` with explicit `% 2 ^ w` truncation at
the points where the spec prescribes truncation.
-/

set_option maxHeartbeats 1000000

namespace Pbcodec

/-- Modelled from the spec: base-128 little-endian varint encoding, each byte
carrying 7 value bits plus a continuation bit (section 4.1).  The fuel
argument bounds the recursion; `encodeVarint` supplies fuel 10, which is
exact for every 64-bit value (the missing source is the varint encoder of
the wire layer). -/
def encodeVarintAux : Nat → Nat → List Nat
  | 0, n => [n % 128]
  | fuel + 1, n => if n < 128 then [n] else (n % 128 + 128) :: encodeVarintAux fuel (n / 128)

/-- Modelled from the spec: varint encoding of an unsigned 64-bit value,
"maximum 10 bytes for a 64-bit unsigned value" (section 4.1). -/
def encodeVarint (n : Nat) : List Nat :=
  encodeVarintAux 10 n

/-- Modelled from the spec: the algebraic varint size function, "varint
length is the count of 7-bit groups required" (section 4.1); computed
without materialising the bytes. -/
def varintSizeAux : Nat → Nat → Nat
  | 0, _ => 1
  | fuel + 1, n => if n < 128 then 1 else 1 + varintSizeAux fuel (n / 128)

/-- Modelled from the spec: size of `encodeVarint n` computed algebraically. -/
def varintSize (n : Nat) : Nat :=
  varintSizeAux 10 n

/-- Modelled from the spec: varint decoding; fails when the source ends
before a terminating byte, or when byte 10 still has its continuation bit
set, i.e. when a byte would start at bit position 70 (section 4.1). -/
def decodeVarintAux : List Nat → Nat → Nat → Option (Nat × List Nat)
  | [], _, _ => none
  | b :: rest, shift, acc =>
    if 70 ≤ shift then none
    else if b < 128 then some (acc + b * 2 ^ shift, rest)
    else decodeVarintAux rest (shift + 7) (acc + b % 128 * 2 ^ shift)

/-- Modelled from the spec: varint decoding of an unsigned 64-bit value; a
wider wire value is truncated to its low-order 64 bits, "overflow is
explicitly NOT an error" (section 7). -/
def decodeVarint (bs : List Nat) : Option (Nat × List Nat) :=
  (decodeVarintAux bs 0 0).map (fun p => (p.1 % 2 ^ 64, p.2))

theorem encodeVarintAux_ne_nil (fuel n : Nat) : encodeVarintAux fuel n ≠ [] := by
  cases fuel with
  | zero => simp [encodeVarintAux]
  | succ f =>
    simp only [encodeVarintAux]
    split <;> simp

theorem encodeVarint_ne_nil (n : Nat) : encodeVarint n ≠ [] :=
  encodeVarintAux_ne_nil 10 n

theorem length_encodeVarintAux_pos (fuel n : Nat) : 0 < (encodeVarintAux fuel n).length := by
  have h := encodeVarintAux_ne_nil fuel n
  cases hE : encodeVarintAux fuel n with
  | nil => exact absurd hE h
  | cons a l => simp

theorem varintSizeAux_eq_length (fuel n : Nat) :
    varintSizeAux fuel n = (encodeVarintAux fuel n).length := by
  induction fuel generalizing n with
  | zero => simp [varintSizeAux, encodeVarintAux]
  | succ f ih =>
    simp only [varintSizeAux, encodeVarintAux]
    split
    · simp
    · simp only [ih, List.length_cons]
      omega

theorem varintSize_eq_length (n : Nat) : varintSize n = (encodeVarint n).length :=
  varintSizeAux_eq_length 10 n

theorem decodeVarintAux_encodeVarintAux (fuel : Nat) :
    ∀ n shift acc rest, n < 2 ^ (7 * fuel + 7) → n < 2 ^ (70 - shift) → shift < 70 →
      decodeVarintAux (encodeVarintAux fuel n ++ rest) shift acc =
        some (acc + n * 2 ^ shift, rest) := by
  induction fuel with
  | zero =>
    intro n shift acc rest hfuel hshift hlt
    have hn : n < 128 := by simpa using hfuel
    have hmod : n % 128 = n := Nat.mod_eq_of_lt hn
    simp [encodeVarintAux, decodeVarintAux, hmod, Nat.not_le.mpr hlt, hn]
  | succ f ih =>
    intro n shift acc rest hfuel hshift hlt
    by_cases hn : n < 128
    · simp [encodeVarintAux, decodeVarintAux, hn, Nat.not_le.mpr hlt]
    · have hb : ¬ (n % 128 + 128 < 128) := by omega
      have h7 : (2 : Nat) ^ 7 ≤ n := by omega
      have hsh63 : shift < 63 := by
        by_contra hc
        push_neg at hc
        have : (70 - shift) ≤ 7 := by omega
        have : (2 : Nat) ^ (70 - shift) ≤ 2 ^ 7 := Nat.pow_le_pow_right (by omega) this
        omega
      have hdiv : n / 128 < 2 ^ (7 * f + 7) := by
        have h128 : (128 : Nat) = 2 ^ 7 := by norm_num
        have : n < 2 ^ (7 * (f + 1) + 7) := hfuel
        have hpow : 2 ^ (7 * (f + 1) + 7) = 2 ^ (7 * f + 7) * 2 ^ 7 := by ring
        rw [Nat.div_lt_iff_lt_mul (by omega)]
        calc n < 2 ^ (7 * (f + 1) + 7) := hfuel
        _ = 2 ^ (7 * f + 7) * 2 ^ 7 := hpow
        _ = 2 ^ (7 * f + 7) * 128 := by norm_num
      have hdiv70 : n / 128 < 2 ^ (70 - (shift + 7)) := by
        have h128 : (128 : Nat) = 2 ^ 7 := by norm_num
        rw [Nat.div_lt_iff_lt_mul (by omega)]
        calc n < 2 ^ (70 - shift) := hshift
        _ = 2 ^ (70 - (shift + 7)) * 2 ^ 7 := by
              rw [← Nat.pow_add]
              congr 1
              omega
        _ = 2 ^ (70 - (shift + 7)) * 128 := by norm_num
      have hrec := ih (n / 128) (shift + 7) (acc + (n % 128 + 128) % 128 * 2 ^ shift) rest
        hdiv hdiv70 (by omega)
      simp only [encodeVarintAux, if_neg hn, List.cons_append]
      simp only [decodeVarintAux, if_neg (by omega : ¬ 70 ≤ shift), if_neg hb]
      rw [hrec]
      have hmodmod : (n % 128 + 128) % 128 = n % 128 := by omega
      have hdecomp : n = 128 * (n / 128) + n % 128 := by omega
      have hpow : (2 : Nat) ^ (shift + 7) = 2 ^ shift * 128 := by
        rw [Nat.pow_add]
      have harith : acc + (n % 128 + 128) % 128 * 2 ^ shift + n / 128 * 2 ^ (shift + 7)
          = acc + n * 2 ^ shift := by
        rw [hmodmod, hpow]
        calc acc + n % 128 * 2 ^ shift + n / 128 * (2 ^ shift * 128)
            = acc + (128 * (n / 128) + n % 128) * 2 ^ shift := by ring
          _ = acc + n * 2 ^ shift := by rw [← hdecomp]
      rw [harith]

theorem decodeVarint_encodeVarint {n : Nat} (h : n < 2 ^ 64) (rest : List Nat) :
    decodeVarint (encodeVarint n ++ rest) = some (n, rest) := by
  have haux := decodeVarintAux_encodeVarintAux 10 n 0 0 rest
    (lt_of_lt_of_le h (Nat.pow_le_pow_right (by omega) (by omega)))
    (lt_of_lt_of_le h (Nat.pow_le_pow_right (by omega) (by omega)))
    (by omega)
  simp only [decodeVarint, encodeVarint, haux, Option.map_some']
  have hlit : (0 + n * 2 ^ 0) % 2 ^ 64 = n := by
    simp only [Nat.zero_add, pow_zero, Nat.mul_one]
    exact Nat.mod_eq_of_lt h
  rw [hlit]

theorem decodeVarintAux_length {bs : List Nat} :
    ∀ {shift acc n r}, decodeVarintAux bs shift acc = some (n, r) → r.length < bs.length := by
  induction bs with
  | nil => intro shift acc n r h; simp [decodeVarintAux] at h
  | cons b rest ih =>
    intro shift acc n r h
    simp only [decodeVarintAux] at h
    split at h
    · exact absurd h (by simp)
    · split at h
      · simp only [Option.some.injEq, Prod.mk.injEq] at h
        obtain ⟨-, h2⟩ := h
        subst h2
        simp
      · have := ih h
        simpa using Nat.lt_succ_of_lt this

theorem decodeVarint_length {bs : List Nat} {n : Nat} {r : List Nat}
    (h : decodeVarint bs = some (n, r)) : r.length < bs.length := by
  simp only [decodeVarint, Option.map_eq_some'] at h
  obtain ⟨⟨m, r2⟩, hm, heq⟩ := h
  simp only [Prod.mk.injEq] at heq
  obtain ⟨-, h2⟩ := heq
  subst h2
  exact decodeVarintAux_length hm

theorem decodeVarintAux_append {bs : List Nat} :
    ∀ {shift acc n r} (more : List Nat), decodeVarintAux bs shift acc = some (n, r) →
      decodeVarintAux (bs ++ more) shift acc = some (n, r ++ more) := by
  induction bs with
  | nil => intro shift acc n r more h; simp [decodeVarintAux] at h
  | cons b rest ih =>
    intro shift acc n r more h
    simp only [decodeVarintAux] at h ⊢
    split at h
    · exact absurd h (by simp)
    · rename_i hsh
      rw [if_neg hsh]
      split at h
      · rename_i hlt
        rw [if_pos hlt]
        simp only [Option.some.injEq, Prod.mk.injEq] at h
        obtain ⟨h1, h2⟩ := h
        subst h1; subst h2
        rfl
      · rename_i hlt
        rw [if_neg hlt]
        exact ih more h

theorem decodeVarint_append {bs : List Nat} {n : Nat} {r : List Nat} (more : List Nat)
    (h : decodeVarint bs = some (n, r)) :
    decodeVarint (bs ++ more) = some (n, r ++ more) := by
  simp only [decodeVarint, Option.map_eq_some'] at h
  obtain ⟨⟨m, r2⟩, hm, heq⟩ := h
  simp only [Prod.mk.injEq] at heq
  obtain ⟨h1, h2⟩ := heq
  subst h1; subst h2
  simp only [decodeVarint, decodeVarintAux_append more hm, Option.map_some']

/-- Modelled from the spec: the four supported wire types; the legacy group
codes 3 and 4 are recognised during tag parsing but unsupported (section 3,
section 4.1). -/
inductive WireType where
  | varint
  | fixed64
  | lengthDelimited
  | fixed32
deriving DecidableEq

/-- Modelled from the spec: the 3-bit wire-type code of each wire type
(section 6, wire type codes 0, 1, 2, 5). -/
def WireType.code : WireType → Nat
  | .varint => 0
  | .fixed64 => 1
  | .lengthDelimited => 2
  | .fixed32 => 5

/-- Modelled from the spec: recovering a wire type from its 3-bit code; the
group codes 3 and 4 are unsupported and codes 6 and 7 are invalid, all of
them fatal decode errors, also while skipping (sections 4.1 and 4.7). -/
def wireTypeOfCode : Nat → Option WireType
  | 0 => some .varint
  | 1 => some .fixed64
  | 2 => some .lengthDelimited
  | 5 => some .fixed32
  | _ => none

theorem WireType.code_lt (wt : WireType) : wt.code < 8 := by
  cases wt <;> decide

theorem wireTypeOfCode_code (wt : WireType) : wireTypeOfCode wt.code = some wt := by
  cases wt <;> rfl

/-- One field occurrence on the wire: a field number, a wire type and the
payload bytes that follow the tag (for a length-delimited payload the length
prefix is part of the payload).  This is the unit written by one iteration
of the encode loop of spec section 4.7. -/
structure Item where
  tag : Nat
  wt : WireType
  payload : List Nat
deriving DecidableEq

/-- Modelled from the spec: the tag is one varint holding
`field_number * 8 + wire_type_code` (sections 4.1 and 6). -/
def encodeTag (tag : Nat) (wt : WireType) : List Nat :=
  encodeVarint (tag * 8 + wt.code)

/-- The bytes of one field occurrence: encoded tag followed by the payload. -/
def itemBytes (it : Item) : List Nat :=
  encodeTag it.tag it.wt ++ it.payload

/-- The bytes of a sequence of field occurrences, in order. -/
def itemsBytes : List Item → List Nat
  | [] => []
  | it :: rest => itemBytes it ++ itemsBytes rest

theorem itemsBytes_append (xs ys : List Item) :
    itemsBytes (xs ++ ys) = itemsBytes xs ++ itemsBytes ys := by
  induction xs with
  | nil => simp [itemsBytes]
  | cons it rest ih => simp [itemsBytes, ih]

theorem itemBytes_ne_nil (it : Item) : itemBytes it ≠ [] := by
  simp only [itemBytes, encodeTag]
  intro h
  exact encodeVarint_ne_nil _ (List.append_eq_nil.mp h).1

/-- Modelled from the spec: structural skipping of a field whose tag is
unknown to the schema: `Varint` consumes one varint, `Fixed32`/`Fixed64`
consume 4/8 bytes, `LengthDelimited` reads the length varint and consumes
that many bytes (section 4.7). -/
def skipField : WireType → List Nat → Option (List Nat)
  | .varint, bs => (decodeVarint bs).map (fun p => p.2)
  | .fixed32, bs => if 4 ≤ bs.length then some (bs.drop 4) else none
  | .fixed64, bs => if 8 ≤ bs.length then some (bs.drop 8) else none
  | .lengthDelimited, bs =>
    match decodeVarint bs with
    | none => none
    | some (n, bs1) => if n ≤ bs1.length then some (bs1.drop n) else none

/-- Modelled from the spec: a message codec is an ordered composition of
field codecs; this structure is the polymorphic field-descriptor capability
of spec section 9 — a tag-membership test, a default value, the encode side
as a list of field occurrences (the encode loop of section 4.7 writes
tag + payload per occurrence), the decode-into-state operation, the
algebraic size function and the well-formedness predicate bounding values
to what the machine-width wire format can carry. -/
structure FieldsCodec (σ : Type) where
  isTarget : Nat → Bool
  dflt : σ
  items : σ → List Item
  decodeF : σ → Nat → WireType → List Nat → Option (σ × List Nat)
  sizeF : σ → Nat
  good : σ → Bool

/-- Modelled from the spec: one iteration of the message decode loop —
decode a tag varint, split it into field number and wire-type code, then
either hand the positioned source to the matching field codec or
structurally skip an unknown field (section 4.7). -/
def stepField (F : FieldsCodec σ) (s : σ) (bs : List Nat) : Option (σ × List Nat) :=
  match decodeVarint bs with
  | none => none
  | some (tv, bs1) =>
    match wireTypeOfCode (tv % 8) with
    | none => none
    | some wt =>
      if F.isTarget (tv / 8) then F.decodeF s (tv / 8) wt bs1
      else
        match skipField wt bs1 with
        | none => none
        | some bs2 => some (s, bs2)

/-- Modelled from the spec: the message decode loop, iterated until clean
end of input (success) or a failing step (`Malformed`); the fuel argument
makes the recursion structural and is supplied as the byte count, which is
an upper bound on the number of loop iterations because every iteration
consumes at least the one-byte-minimum tag varint (section 4.7). -/
def runFieldsAux (F : FieldsCodec σ) : Nat → σ → List Nat → Option σ
  | _, s, [] => some s
  | 0, _, _ :: _ => none
  | fuel + 1, s, b :: bs =>
    match stepField F s (b :: bs) with
    | none => none
    | some p => runFieldsAux F fuel p.1 p.2

/-- Modelled from the spec: `encode(value) -> byte sequence` of a message,
the concatenation of its field occurrences in declared field order
(sections 4.7 and 6). -/
def encodeMessage (F : FieldsCodec σ) (v : σ) : List Nat :=
  itemsBytes (F.items v)

/-- Modelled from the spec: `decode(byte source) -> value` of a message,
running the decode loop from the all-defaults state over the whole input
(sections 4.7 and 6). -/
def decodeMessage (F : FieldsCodec σ) (bs : List Nat) : Option σ :=
  runFieldsAux F bs.length F.dflt bs

/-- Decoding item `it` from state `s` consumes exactly the payload and
yields state `s2`, whatever bytes follow. -/
def DecItem (F : FieldsCodec σ) (s : σ) (it : Item) (s2 : σ) : Prop :=
  ∀ rest, F.decodeF s it.tag it.wt (it.payload ++ rest) = some (s2, rest)

/-- Chained exact decoding of a list of in-schema field occurrences. -/
inductive DecItems (F : FieldsCodec σ) : σ → List Item → σ → Prop where
  | nil : ∀ s, DecItems F s [] s
  | cons : ∀ s it s2 its s3, F.isTarget it.tag = true → it.tag < 2 ^ 29 →
      DecItem F s it s2 → DecItems F s2 its s3 → DecItems F s (it :: its) s3

theorem DecItems.append {F : FieldsCodec σ} {s s2 s3 : σ} {xs ys : List Item}
    (h1 : DecItems F s xs s2) (h2 : DecItems F s2 ys s3) :
    DecItems F s (xs ++ ys) s3 := by
  induction h1 with
  | nil s => simpa using h2
  | cons s it t its t3 htarget htag hdec hrest ih =>
    exact DecItems.cons _ _ _ _ _ htarget htag hdec (ih h2)

theorem stepField_item (F : FieldsCodec σ) {s s2 : σ} (it : Item) (rest : List Nat)
    (htag : it.tag < 2 ^ 29) (htarget : F.isTarget it.tag = true)
    (hdec : DecItem F s it s2) :
    stepField F s (itemBytes it ++ rest) = some (s2, rest) := by
  have hcode := WireType.code_lt it.wt
  have hlt : it.tag * 8 + it.wt.code < 2 ^ 64 := by omega
  have hdv : decodeVarint (encodeVarint (it.tag * 8 + it.wt.code) ++ (it.payload ++ rest))
      = some (it.tag * 8 + it.wt.code, it.payload ++ rest) := decodeVarint_encodeVarint hlt _
  have hmod : (it.tag * 8 + it.wt.code) % 8 = it.wt.code := by omega
  have hdiv : (it.tag * 8 + it.wt.code) / 8 = it.tag := by omega
  simp only [itemBytes, encodeTag, List.append_assoc]
  simp only [stepField, hdv, hmod, hdiv, wireTypeOfCode_code, htarget, if_true]
  exact hdec rest

theorem runFieldsAux_decItems (F : FieldsCodec σ) {s : σ} {its : List Item} {s3 : σ}
    (h : DecItems F s its s3) :
    ∀ fuel, (itemsBytes its).length ≤ fuel → runFieldsAux F fuel s (itemsBytes its) = some s3 := by
  induction h with
  | nil s =>
    intro fuel hf
    simp [itemsBytes, runFieldsAux]
  | cons s it s2 its t3 htarget htag hdec hrest ih =>
    intro fuel hf
    obtain ⟨b, l, hb⟩ : ∃ b l, itemBytes it = b :: l := by
      cases hE : itemBytes it with
      | nil => exact absurd hE (itemBytes_ne_nil it)
      | cons b l => exact ⟨b, l, rfl⟩
    have hbytes : itemsBytes (it :: its) = itemBytes it ++ itemsBytes its := rfl
    have hlen : (itemsBytes (it :: its)).length
        = (itemBytes it).length + (itemsBytes its).length := by
      rw [hbytes]; simp
    have hpos : 1 ≤ (itemBytes it).length := by rw [hb]; simp
    cases fuel with
    | zero =>
      exfalso
      rw [hlen] at hf
      omega
    | succ f =>
      have hstep := stepField_item F it (itemsBytes its) htag htarget hdec
      rw [hbytes, hb, List.cons_append]
      simp only [runFieldsAux]
      rw [← List.cons_append, ← hb, hstep]
      exact ih f (by rw [hlen] at hf; omega)

/-- The two semantic laws a composed fields codec must satisfy for the
round-trip property: its own encoding decodes back from the all-defaults
state, and its algebraic size matches its encoding. -/
structure LawfulFields (F : FieldsCodec σ) : Prop where
  complete : ∀ v, F.good v = true → DecItems F F.dflt (F.items v) v
  size_eq : ∀ v, F.sizeF v = (encodeMessage F v).length

theorem decodeMessage_encodeMessage (F : FieldsCodec σ) (hF : LawfulFields F) (v : σ)
    (hv : F.good v = true) : decodeMessage F (encodeMessage F v) = some v :=
  runFieldsAux_decItems F (hF.complete v hv) _ le_rfl

/-- Modelled from the spec: the pluggable leaf-codec capability contract of
section 6 — a wire type, a default value, an encode/decode pair, an
algebraic size function and a well-formedness predicate bounding values to
the widths the wire format carries.  For length-delimited kinds the length
prefix is part of the payload produced by `enc`. -/
structure ScalarCodec (α : Type) where
  wt : WireType
  dflt : α
  enc : α → List Nat
  dec : List Nat → Option (α × List Nat)
  sizeS : α → Nat
  good : α → Bool

/-- The semantic laws of a leaf codec: its encoding decodes back exactly
(suffix included), its encoding is never empty, and its algebraic size
matches its encoding. -/
structure LawfulScalar (C : ScalarCodec α) : Prop where
  dec_enc : ∀ v, C.good v = true → ∀ rest, C.dec (C.enc v ++ rest) = some (v, rest)
  enc_ne : ∀ v, C.good v = true → C.enc v ≠ []
  size_eq : ∀ v, C.sizeS v = (C.enc v).length

/-- Modelled from the spec: two's-complement reading of the low `w` bits of
a decoded varint; "int32/uint32 truncate a 64-bit varint-decoded value to
the low 32 bits" and plain int uses "raw varint with two's-complement
sign-extension" (sections 4.1 and 4.2). -/
def twosComp (w : Nat) (n : Nat) : Int :=
  let m := n % 2 ^ w
  if m < 2 ^ (w - 1) then (m : Int) else (m : Int) - 2 ^ w

/-- Modelled from the spec: the unsigned `w`-bit two's-complement
representation of a signed value (sections 4.1 and 4.2). -/
def toUnsigned (w : Nat) (v : Int) : Nat :=
  (v % (2 ^ w : Int)).toNat

theorem toUnsigned_lt (w : Nat) (v : Int) : toUnsigned w v < 2 ^ w := by
  have hcast : ((2 : Int) ^ w) = ((2 ^ w : Nat) : Int) := by push_cast; ring
  have hpos : (0 : Int) < ((2 ^ w : Nat) : Int) := by exact_mod_cast Nat.two_pow_pos w
  simp only [toUnsigned, hcast]
  have h1 := Int.emod_nonneg v (ne_of_gt hpos)
  have h2 := Int.emod_lt_of_pos v hpos
  omega

theorem twosComp_toUnsigned32 (v : Int) (h1 : -(2 ^ 31) ≤ v) (h2 : v < 2 ^ 31) :
    twosComp 32 (toUnsigned 64 v) = v := by
  simp only [twosComp, toUnsigned]
  split <;> omega

theorem twosComp_toUnsigned64 (v : Int) (h1 : -(2 ^ 63) ≤ v) (h2 : v < 2 ^ 63) :
    twosComp 64 (toUnsigned 64 v) = v := by
  simp only [twosComp, toUnsigned]
  split <;> omega

theorem xor_two_pow_sub_one (w : Nat) : ∀ m, m < 2 ^ w → m ^^^ (2 ^ w - 1) = 2 ^ w - 1 - m := by
  induction w with
  | zero =>
    intro m h
    have hm : m = 0 := by omega
    subst hm
    rfl
  | succ w ih =>
    intro m h
    have hpow : 2 ^ (w + 1) = 2 * 2 ^ w := by rw [pow_succ]; ring
    have hpos : 0 < 2 ^ w := Nat.two_pow_pos w
    have hq : m / 2 < 2 ^ w := by omega
    have hone : 2 ^ (w + 1) - 1 = Nat.bit true (2 ^ w - 1) := by
      rw [Nat.bit_val]
      simp only [Bool.toNat_true]
      omega
    have hrec := ih (m / 2) hq
    rcases Nat.mod_two_eq_zero_or_one m with hb2 | hb2
    · have hb : m = Nat.bit false (m / 2) := by
        rw [Nat.bit_val]
        simp only [Bool.toNat_false]
        omega
      have key : m ^^^ (2 ^ (w + 1) - 1) = Nat.bit true (2 ^ w - 1 - m / 2) := by
        calc m ^^^ (2 ^ (w + 1) - 1)
            = Nat.bit false (m / 2) ^^^ Nat.bit true (2 ^ w - 1) := by rw [← hb, ← hone]
          _ = Nat.bit (false != true) (m / 2 ^^^ (2 ^ w - 1)) := Nat.xor_bit _ _ _ _
          _ = Nat.bit true (2 ^ w - 1 - m / 2) := by rw [hrec]; rfl
      rw [key, Nat.bit_val]
      simp only [Bool.toNat_true]
      omega
    · have hb : m = Nat.bit true (m / 2) := by
        rw [Nat.bit_val]
        simp only [Bool.toNat_true]
        omega
      have key : m ^^^ (2 ^ (w + 1) - 1) = Nat.bit false (2 ^ w - 1 - m / 2) := by
        calc m ^^^ (2 ^ (w + 1) - 1)
            = Nat.bit true (m / 2) ^^^ Nat.bit true (2 ^ w - 1) := by rw [← hb, ← hone]
          _ = Nat.bit (true != true) (m / 2 ^^^ (2 ^ w - 1)) := Nat.xor_bit _ _ _ _
          _ = Nat.bit false (2 ^ w - 1 - m / 2) := by rw [hrec]; rfl
      rw [key, Nat.bit_val]
      simp only [Bool.toNat_false]
      omega

/-- Modelled from the spec: the zigzag transform `(n << 1) ^ (n >> 31)` on
the 32-bit two's-complement representation; the arithmetic right shift of a
32-bit value by 31 is all-ones for a negative value and zero otherwise
(sections 4.1 and 6). -/
def zigzag32 (v : Int) : Nat :=
  toUnsigned 32 v * 2 % 2 ^ 32 ^^^ (if v < 0 then 2 ^ 32 - 1 else 0)

/-- Modelled from the spec: the zigzag transform with shift 63 on the
64-bit two's-complement representation (sections 4.1 and 6). -/
def zigzag64 (v : Int) : Nat :=
  toUnsigned 64 v * 2 % 2 ^ 64 ^^^ (if v < 0 then 2 ^ 64 - 1 else 0)

/-- Modelled from the spec: the inverse zigzag transform used by the
`sint*` decoders, mapping an unsigned wire value back to a signed value
(section 4.1). -/
def unzigzag (z : Nat) : Int :=
  if z % 2 = 0 then ((z / 2 : Nat) : Int) else -((z / 2 : Nat) : Int) - 1

theorem zigzag32_lt (v : Int) : zigzag32 v < 2 ^ 32 := by
  have h1 : toUnsigned 32 v * 2 % 2 ^ 32 < 2 ^ 32 := Nat.mod_lt _ (by norm_num)
  simp only [zigzag32]
  split
  · exact Nat.lt_of_lt_of_le (Nat.xor_lt_two_pow h1 (by norm_num)) le_rfl
  · simpa using h1

theorem zigzag64_lt (v : Int) : zigzag64 v < 2 ^ 64 := by
  have h1 : toUnsigned 64 v * 2 % 2 ^ 64 < 2 ^ 64 := Nat.mod_lt _ (by norm_num)
  simp only [zigzag64]
  split
  · exact Nat.lt_of_lt_of_le (Nat.xor_lt_two_pow h1 (by norm_num)) le_rfl
  · simpa using h1

theorem unzigzag_zigzag32 (v : Int) (h1 : -(2 ^ 31) ≤ v) (h2 : v < 2 ^ 31) :
    unzigzag (zigzag32 v) = v := by
  have hu : ((toUnsigned 32 v : Nat) : Int) = v % 2 ^ 32 := by
    simp only [toUnsigned]
    have hpos : (0 : Int) < 2 ^ 32 := by positivity
    have := Int.emod_nonneg v (ne_of_gt hpos)
    omega
  rcases lt_or_le v 0 with hneg | hpos
  · have hm : toUnsigned 32 v * 2 % 2 ^ 32 = toUnsigned 32 v * 2 - 2 ^ 32 := by
      have := toUnsigned_lt 32 v
      have hge : 2 ^ 32 ≤ toUnsigned 32 v * 2 := by omega
      omega
    have hlt : toUnsigned 32 v * 2 - 2 ^ 32 < 2 ^ 32 := by
      have := toUnsigned_lt 32 v
      omega
    simp only [zigzag32, if_pos hneg, hm, xor_two_pow_sub_one 32 _ hlt]
    simp only [unzigzag]
    omega
  · have hm : toUnsigned 32 v * 2 % 2 ^ 32 = toUnsigned 32 v * 2 := by
      apply Nat.mod_eq_of_lt
      omega
    simp only [zigzag32, if_neg (by omega : ¬ v < 0), hm, Nat.xor_zero]
    simp only [unzigzag]
    omega

theorem unzigzag_zigzag64 (v : Int) (h1 : -(2 ^ 63) ≤ v) (h2 : v < 2 ^ 63) :
    unzigzag (zigzag64 v) = v := by
  have hu : ((toUnsigned 64 v : Nat) : Int) = v % 2 ^ 64 := by
    simp only [toUnsigned]
    have hpos : (0 : Int) < 2 ^ 64 := by positivity
    have := Int.emod_nonneg v (ne_of_gt hpos)
    omega
  rcases lt_or_le v 0 with hneg | hpos
  · have hm : toUnsigned 64 v * 2 % 2 ^ 64 = toUnsigned 64 v * 2 - 2 ^ 64 := by
      have := toUnsigned_lt 64 v
      have hge : 2 ^ 64 ≤ toUnsigned 64 v * 2 := by omega
      omega
    have hlt : toUnsigned 64 v * 2 - 2 ^ 64 < 2 ^ 64 := by
      have := toUnsigned_lt 64 v
      omega
    simp only [zigzag64, if_pos hneg, hm, xor_two_pow_sub_one 64 _ hlt]
    simp only [unzigzag]
    omega
  · have hm : toUnsigned 64 v * 2 % 2 ^ 64 = toUnsigned 64 v * 2 := by
      apply Nat.mod_eq_of_lt
      omega
    simp only [zigzag64, if_neg (by omega : ¬ v < 0), hm, Nat.xor_zero]
    simp only [unzigzag]
    omega

/-- Modelled from the spec: the bool codec — "a varint whose decoded value
is compared against zero: any non-zero varint decodes to true (not only the
value 1); encode always emits 0 or 1" (section 4.1, `Bool` of
`decode/types.rs`). -/
def boolC : ScalarCodec Bool where
  wt := .varint
  dflt := false
  enc b := [if b then 1 else 0]
  dec bs := (decodeVarint bs).map (fun p => (decide (p.1 ≠ 0), p.2))
  sizeS _ := 1
  good _ := true

/-- Modelled from the spec: the uint32 codec, a varint truncated to the low
32 bits on decode (section 4.2, `Uint32` of `decode/types.rs`). -/
def uint32C : ScalarCodec Nat where
  wt := .varint
  dflt := 0
  enc := encodeVarint
  dec bs := (decodeVarint bs).map (fun p => (p.1 % 2 ^ 32, p.2))
  sizeS := varintSize
  good v := decide (v < 2 ^ 32)

/-- Modelled from the spec: the uint64 codec, a plain 64-bit varint
(section 4.2, `Uint64` of `decode/types.rs`). -/
def uint64C : ScalarCodec Nat where
  wt := .varint
  dflt := 0
  enc := encodeVarint
  dec := decodeVarint
  sizeS := varintSize
  good v := decide (v < 2 ^ 64)

/-- Modelled from the spec: the int32 codec — raw varint of the 64-bit
sign-extended two's-complement representation on encode, truncation to the
low 32 bits read as two's complement on decode (sections 4.1 and 4.2,
`Int32` of `decode/types.rs`). -/
def int32C : ScalarCodec Int where
  wt := .varint
  dflt := 0
  enc v := encodeVarint (toUnsigned 64 v)
  dec bs := (decodeVarint bs).map (fun p => (twosComp 32 p.1, p.2))
  sizeS v := varintSize (toUnsigned 64 v)
  good v := decide (-(2 ^ 31) ≤ v) && decide (v < 2 ^ 31)

/-- Modelled from the spec: the int64 codec, raw varint of the 64-bit
two's-complement representation (sections 4.1 and 4.2, `Int64` of
`decode/types.rs`). -/
def int64C : ScalarCodec Int where
  wt := .varint
  dflt := 0
  enc v := encodeVarint (toUnsigned 64 v)
  dec bs := (decodeVarint bs).map (fun p => (twosComp 64 p.1, p.2))
  sizeS v := varintSize (toUnsigned 64 v)
  good v := decide (-(2 ^ 63) ≤ v) && decide (v < 2 ^ 63)

/-- Modelled from the spec: the sint32 codec, a varint of the 32-bit zigzag
transform (sections 4.1 and 4.2, `Sint32` of `decode/types.rs`). -/
def sint32C : ScalarCodec Int where
  wt := .varint
  dflt := 0
  enc v := encodeVarint (zigzag32 v)
  dec bs := (decodeVarint bs).map (fun p => (unzigzag (p.1 % 2 ^ 32), p.2))
  sizeS v := varintSize (zigzag32 v)
  good v := decide (-(2 ^ 31) ≤ v) && decide (v < 2 ^ 31)

/-- Modelled from the spec: the sint64 codec, a varint of the 64-bit zigzag
transform (sections 4.1 and 4.2, `Sint64` of `decode/types.rs`). -/
def sint64C : ScalarCodec Int where
  wt := .varint
  dflt := 0
  enc v := encodeVarint (zigzag64 v)
  dec bs := (decodeVarint bs).map (fun p => (unzigzag p.1, p.2))
  sizeS v := varintSize (zigzag64 v)
  good v := decide (-(2 ^ 63) ≤ v) && decide (v < 2 ^ 63)

theorem lawful_boolC : LawfulScalar boolC := by
  constructor
  · intro v _ rest
    cases v with
    | false =>
      calc boolC.dec (boolC.enc false ++ rest)
          = (decodeVarint (encodeVarint 0 ++ rest)).map (fun p => (decide (p.1 ≠ 0), p.2)) := rfl
        _ = (some ((0 : Nat), rest)).map (fun p => (decide (p.1 ≠ 0), p.2)) := by
              rw [decodeVarint_encodeVarint (by norm_num) rest]
        _ = some (false, rest) := rfl
    | true =>
      calc boolC.dec (boolC.enc true ++ rest)
          = (decodeVarint (encodeVarint 1 ++ rest)).map (fun p => (decide (p.1 ≠ 0), p.2)) := rfl
        _ = (some ((1 : Nat), rest)).map (fun p => (decide (p.1 ≠ 0), p.2)) := by
              rw [decodeVarint_encodeVarint (by norm_num) rest]
        _ = some (true, rest) := rfl
  · intro v _
    cases v <;> simp [boolC]
  · intro v
    cases v <;> simp [boolC]

theorem lawful_uint32C : LawfulScalar uint32C := by
  constructor
  · intro v hv rest
    have hlt : v < 2 ^ 32 := by simpa [uint32C] using hv
    have h64 : v < 2 ^ 64 := lt_of_lt_of_le hlt (by norm_num)
    have hmod : v % 2 ^ 32 = v := Nat.mod_eq_of_lt hlt
    calc uint32C.dec (uint32C.enc v ++ rest)
        = (decodeVarint (encodeVarint v ++ rest)).map (fun p => (p.1 % 2 ^ 32, p.2)) := rfl
      _ = (some (v, rest)).map (fun p => (p.1 % 2 ^ 32, p.2)) := by
            rw [decodeVarint_encodeVarint h64 rest]
      _ = some (v % 2 ^ 32, rest) := rfl
      _ = some (v, rest) := by rw [hmod]
  · intro v _
    exact encodeVarint_ne_nil v
  · intro v
    exact varintSize_eq_length v

theorem lawful_uint64C : LawfulScalar uint64C := by
  constructor
  · intro v hv rest
    have hlt : v < 2 ^ 64 := by simpa [uint64C] using hv
    simp only [uint64C, decodeVarint_encodeVarint hlt rest]
  · intro v _
    exact encodeVarint_ne_nil v
  · intro v
    exact varintSize_eq_length v

theorem lawful_int32C : LawfulScalar int32C := by
  constructor
  · intro v hv rest
    have hrange : -(2 ^ 31) ≤ v ∧ v < 2 ^ 31 := by
      simpa [int32C, Bool.and_eq_true, decide_eq_true_eq] using hv
    have hlt : toUnsigned 64 v < 2 ^ 64 := toUnsigned_lt 64 v
    calc int32C.dec (int32C.enc v ++ rest)
        = (decodeVarint (encodeVarint (toUnsigned 64 v) ++ rest)).map
            (fun p => (twosComp 32 p.1, p.2)) := rfl
      _ = (some (toUnsigned 64 v, rest)).map (fun p => (twosComp 32 p.1, p.2)) := by
            rw [decodeVarint_encodeVarint hlt rest]
      _ = some (twosComp 32 (toUnsigned 64 v), rest) := rfl
      _ = some (v, rest) := by rw [twosComp_toUnsigned32 v hrange.1 hrange.2]
  · intro v _
    exact encodeVarint_ne_nil _
  · intro v
    exact varintSize_eq_length _

theorem lawful_int64C : LawfulScalar int64C := by
  constructor
  · intro v hv rest
    have hrange : -(2 ^ 63) ≤ v ∧ v < 2 ^ 63 := by
      simpa [int64C, Bool.and_eq_true, decide_eq_true_eq] using hv
    have hlt : toUnsigned 64 v < 2 ^ 64 := toUnsigned_lt 64 v
    calc int64C.dec (int64C.enc v ++ rest)
        = (decodeVarint (encodeVarint (toUnsigned 64 v) ++ rest)).map
            (fun p => (twosComp 64 p.1, p.2)) := rfl
      _ = (some (toUnsigned 64 v, rest)).map (fun p => (twosComp 64 p.1, p.2)) := by
            rw [decodeVarint_encodeVarint hlt rest]
      _ = some (twosComp 64 (toUnsigned 64 v), rest) := rfl
      _ = some (v, rest) := by rw [twosComp_toUnsigned64 v hrange.1 hrange.2]
  · intro v _
    exact encodeVarint_ne_nil _
  · intro v
    exact varintSize_eq_length _

theorem lawful_sint32C : LawfulScalar sint32C := by
  constructor
  · intro v hv rest
    have hrange : -(2 ^ 31) ≤ v ∧ v < 2 ^ 31 := by
      simpa [sint32C, Bool.and_eq_true, decide_eq_true_eq] using hv
    have h32 : zigzag32 v < 2 ^ 32 := zigzag32_lt v
    have hlt : zigzag32 v < 2 ^ 64 := lt_of_lt_of_le h32 (by norm_num)
    have hmod : zigzag32 v % 2 ^ 32 = zigzag32 v := Nat.mod_eq_of_lt h32
    calc sint32C.dec (sint32C.enc v ++ rest)
        = (decodeVarint (encodeVarint (zigzag32 v) ++ rest)).map
            (fun p => (unzigzag (p.1 % 2 ^ 32), p.2)) := rfl
      _ = (some (zigzag32 v, rest)).map (fun p => (unzigzag (p.1 % 2 ^ 32), p.2)) := by
            rw [decodeVarint_encodeVarint hlt rest]
      _ = some (unzigzag (zigzag32 v % 2 ^ 32), rest) := rfl
      _ = some (v, rest) := by rw [hmod, unzigzag_zigzag32 v hrange.1 hrange.2]
  · intro v _
    exact encodeVarint_ne_nil _
  · intro v
    exact varintSize_eq_length _

theorem lawful_sint64C : LawfulScalar sint64C := by
  constructor
  · intro v hv rest
    have hrange : -(2 ^ 63) ≤ v ∧ v < 2 ^ 63 := by
      simpa [sint64C, Bool.and_eq_true, decide_eq_true_eq] using hv
    have hlt : zigzag64 v < 2 ^ 64 := zigzag64_lt v
    calc sint64C.dec (sint64C.enc v ++ rest)
        = (decodeVarint (encodeVarint (zigzag64 v) ++ rest)).map
            (fun p => (unzigzag p.1, p.2)) := rfl
      _ = (some (zigzag64 v, rest)).map (fun p => (unzigzag p.1, p.2)) := by
            rw [decodeVarint_encodeVarint hlt rest]
      _ = some (unzigzag (zigzag64 v), rest) := rfl
      _ = some (v, rest) := by rw [unzigzag_zigzag64 v hrange.1 hrange.2]
  · intro v _
    exact encodeVarint_ne_nil _
  · intro v
    exact varintSize_eq_length _

/-- Modelled from the spec: fixed-width little-endian byte writing, exactly
`k` raw bytes, least significant first (section 4.1). -/
def toLE : Nat → Nat → List Nat
  | 0, _ => []
  | k + 1, v => v % 256 :: toLE k (v / 256)

/-- Modelled from the spec: fixed-width little-endian byte reading
(section 4.1). -/
def fromLE : List Nat → Nat
  | [] => 0
  | b :: rest => b + 256 * fromLE rest

theorem take_len_append {α : Type} (l r : List α) (k : Nat) (h : l.length = k) :
    (l ++ r).take k = l := by
  rw [← h]
  exact List.take_left l r

theorem drop_len_append {α : Type} (l r : List α) (k : Nat) (h : l.length = k) :
    (l ++ r).drop k = r := by
  rw [← h]
  exact List.drop_left l r

theorem toLE_length (k : Nat) : ∀ v, (toLE k v).length = k := by
  induction k with
  | zero => intro v; rfl
  | succ k ih => intro v; simp [toLE, ih]

theorem fromLE_toLE (k : Nat) : ∀ v, v < 256 ^ k → fromLE (toLE k v) = v := by
  induction k with
  | zero =>
    intro v hv
    have : v = 0 := by simpa using hv
    subst this
    rfl
  | succ k ih =>
    intro v hv
    have hpow : 256 ^ (k + 1) = 256 ^ k * 256 := pow_succ 256 k
    have hdiv : v / 256 < 256 ^ k := by omega
    simp only [toLE, fromLE, ih (v / 256) hdiv]
    omega

/-- Modelled from the spec: the fixed-width unsigned codec builder, exactly
`k` raw little-endian bytes under the given wire type (section 4.1,
`Fixed32`/`Fixed64` of `decode/types.rs`). -/
def fixedC (wt : WireType) (k : Nat) : ScalarCodec Nat where
  wt := wt
  dflt := 0
  enc v := toLE k v
  dec bs := if k ≤ bs.length then some (fromLE (bs.take k), bs.drop k) else none
  sizeS _ := k
  good v := decide (v < 256 ^ k) && decide (0 < k)

/-- Modelled from the spec: fixed32, 4 raw little-endian bytes
(section 4.1). -/
def fixed32C : ScalarCodec Nat :=
  fixedC .fixed32 4

/-- Modelled from the spec: fixed64, 8 raw little-endian bytes
(section 4.1). -/
def fixed64C : ScalarCodec Nat :=
  fixedC .fixed64 8

/-- Modelled from the spec: float is the same 4 raw little-endian bytes as
fixed32, reinterpreted as IEEE-754; the model carries the 32-bit pattern —
the numeric reading of the bits is outside the wire format (section 4.1,
`Float` of `decode/types.rs`). -/
def floatC : ScalarCodec Nat :=
  fixedC .fixed32 4

/-- Modelled from the spec: double is the same 8 raw little-endian bytes as
fixed64, reinterpreted as IEEE-754; the model carries the 64-bit pattern
(section 4.1, `Double` of `decode/types.rs`). -/
def doubleC : ScalarCodec Nat :=
  fixedC .fixed64 8

theorem lawful_fixedC (wt : WireType) (k : Nat) : LawfulScalar (fixedC wt k) := by
  constructor
  · intro v hv rest
    obtain ⟨h1, h2⟩ : v < 256 ^ k ∧ 0 < k := by
      simpa [fixedC, Bool.and_eq_true, decide_eq_true_eq] using hv
    have hlen : (toLE k v).length = k := toLE_length k v
    have hle : k ≤ (toLE k v ++ rest).length := by simp [hlen]
    have htake : (toLE k v ++ rest).take k = toLE k v := take_len_append _ _ _ hlen
    have hdrop : (toLE k v ++ rest).drop k = rest := drop_len_append _ _ _ hlen
    calc (fixedC wt k).dec ((fixedC wt k).enc v ++ rest)
        = if k ≤ (toLE k v ++ rest).length then
            some (fromLE ((toLE k v ++ rest).take k), (toLE k v ++ rest).drop k)
          else none := rfl
      _ = some (fromLE (toLE k v), rest) := by rw [if_pos hle, htake, hdrop]
      _ = some (v, rest) := by rw [fromLE_toLE k v h1]
  · intro v hv
    obtain ⟨h1, h2⟩ : v < 256 ^ k ∧ 0 < k := by
      simpa [fixedC, Bool.and_eq_true, decide_eq_true_eq] using hv
    have hlen : (toLE k v).length = k := toLE_length k v
    intro hnil
    have hnil2 : toLE k v = [] := hnil
    rw [hnil2] at hlen
    simp at hlen
    omega
  · intro v
    have hlen : (toLE k v).length = k := toLE_length k v
    simp [fixedC, hlen]

theorem twosComp_toUnsigned32of32 (v : Int) (h1 : -(2 ^ 31) ≤ v) (h2 : v < 2 ^ 31) :
    twosComp 32 (toUnsigned 32 v) = v := by
  simp only [twosComp, toUnsigned]
  split <;> omega

theorem twosComp_toUnsigned64of64 (v : Int) (h1 : -(2 ^ 63) ≤ v) (h2 : v < 2 ^ 63) :
    twosComp 64 (toUnsigned 64 v) = v :=
  twosComp_toUnsigned64 v h1 h2

/-- Modelled from the spec: sfixed32, the 32-bit two's-complement
representation as 4 raw little-endian bytes (section 4.1, `Sfixed32` of
`decode/types.rs`). -/
def sfixed32C : ScalarCodec Int where
  wt := .fixed32
  dflt := 0
  enc v := toLE 4 (toUnsigned 32 v)
  dec bs := if 4 ≤ bs.length then some (twosComp 32 (fromLE (bs.take 4)), bs.drop 4) else none
  sizeS _ := 4
  good v := decide (-(2 ^ 31) ≤ v) && decide (v < 2 ^ 31)

/-- Modelled from the spec: sfixed64, the 64-bit two's-complement
representation as 8 raw little-endian bytes (section 4.1, `Sfixed64` of
`decode/types.rs`). -/
def sfixed64C : ScalarCodec Int where
  wt := .fixed64
  dflt := 0
  enc v := toLE 8 (toUnsigned 64 v)
  dec bs := if 8 ≤ bs.length then some (twosComp 64 (fromLE (bs.take 8)), bs.drop 8) else none
  sizeS _ := 8
  good v := decide (-(2 ^ 63) ≤ v) && decide (v < 2 ^ 63)

theorem lawful_sfixed32C : LawfulScalar sfixed32C := by
  constructor
  · intro v hv rest
    obtain ⟨h1, h2⟩ : -(2 ^ 31) ≤ v ∧ v < 2 ^ 31 := by
      simpa [sfixed32C, Bool.and_eq_true, decide_eq_true_eq] using hv
    have hu : toUnsigned 32 v < 256 ^ 4 := by
      have := toUnsigned_lt 32 v
      norm_num at this ⊢
      omega
    have hlen : (toLE 4 (toUnsigned 32 v)).length = 4 := toLE_length 4 _
    have hle : 4 ≤ (toLE 4 (toUnsigned 32 v) ++ rest).length := by simp [hlen]
    have htake : (toLE 4 (toUnsigned 32 v) ++ rest).take 4 = toLE 4 (toUnsigned 32 v) :=
      take_len_append _ _ _ hlen
    have hdrop : (toLE 4 (toUnsigned 32 v) ++ rest).drop 4 = rest :=
      drop_len_append _ _ _ hlen
    calc sfixed32C.dec (sfixed32C.enc v ++ rest)
        = if 4 ≤ (toLE 4 (toUnsigned 32 v) ++ rest).length then
            some (twosComp 32 (fromLE ((toLE 4 (toUnsigned 32 v) ++ rest).take 4)),
              (toLE 4 (toUnsigned 32 v) ++ rest).drop 4)
          else none := rfl
      _ = some (twosComp 32 (fromLE (toLE 4 (toUnsigned 32 v))), rest) := by
            rw [if_pos hle, htake, hdrop]
      _ = some (v, rest) := by
            rw [fromLE_toLE 4 _ hu, twosComp_toUnsigned32of32 v h1 h2]
  · intro v hv
    have hlen : (toLE 4 (toUnsigned 32 v)).length = 4 := toLE_length 4 _
    intro hnil
    have hnil2 : toLE 4 (toUnsigned 32 v) = [] := hnil
    rw [hnil2] at hlen
    simp at hlen
  · intro v
    have hlen : (toLE 4 (toUnsigned 32 v)).length = 4 := toLE_length 4 _
    simp [sfixed32C, hlen]

theorem lawful_sfixed64C : LawfulScalar sfixed64C := by
  constructor
  · intro v hv rest
    obtain ⟨h1, h2⟩ : -(2 ^ 63) ≤ v ∧ v < 2 ^ 63 := by
      simpa [sfixed64C, Bool.and_eq_true, decide_eq_true_eq] using hv
    have hu : toUnsigned 64 v < 256 ^ 8 := by
      have := toUnsigned_lt 64 v
      norm_num at this ⊢
      omega
    have hlen : (toLE 8 (toUnsigned 64 v)).length = 8 := toLE_length 8 _
    have hle : 8 ≤ (toLE 8 (toUnsigned 64 v) ++ rest).length := by simp [hlen]
    have htake : (toLE 8 (toUnsigned 64 v) ++ rest).take 8 = toLE 8 (toUnsigned 64 v) :=
      take_len_append _ _ _ hlen
    have hdrop : (toLE 8 (toUnsigned 64 v) ++ rest).drop 8 = rest :=
      drop_len_append _ _ _ hlen
    calc sfixed64C.dec (sfixed64C.enc v ++ rest)
        = if 8 ≤ (toLE 8 (toUnsigned 64 v) ++ rest).length then
            some (twosComp 64 (fromLE ((toLE 8 (toUnsigned 64 v) ++ rest).take 8)),
              (toLE 8 (toUnsigned 64 v) ++ rest).drop 8)
          else none := rfl
      _ = some (twosComp 64 (fromLE (toLE 8 (toUnsigned 64 v))), rest) := by
            rw [if_pos hle, htake, hdrop]
      _ = some (v, rest) := by
            rw [fromLE_toLE 8 _ hu, twosComp_toUnsigned64of64 v h1 h2]
  · intro v hv
    have hlen : (toLE 8 (toUnsigned 64 v)).length = 8 := toLE_length 8 _
    intro hnil
    have hnil2 : toLE 8 (toUnsigned 64 v) = [] := hnil
    rw [hnil2] at hlen
    simp at hlen
  · intro v
    have hlen : (toLE 8 (toUnsigned 64 v)).length = 8 := toLE_length 8 _
    simp [sfixed64C, hlen]

/-- Modelled from the spec: the bytes codec — length-delimited framing, a
varint length N followed by exactly N raw bytes, no validation
(sections 4.1 and 4.2, `Bytes` of `decode/types.rs`). -/
def bytesC : ScalarCodec (List Nat) where
  wt := .lengthDelimited
  dflt := []
  enc s := encodeVarint s.length ++ s
  dec bs :=
    match decodeVarint bs with
    | none => none
    | some (n, bs1) => if n ≤ bs1.length then some (bs1.take n, bs1.drop n) else none
  sizeS s := varintSize s.length + s.length
  good s := s.all (fun b => decide (b < 256)) && decide (s.length < 2 ^ 64)

/-- Modelled from the spec: the utf8 string codec shares the byte-for-byte
framing of bytes and additionally validates the payload as well-formed
text on decode (section 4.2, `Utf8` of `decode/types.rs`).  The model
carries the byte sequence of the string; a payload produced by encoding
always re-validates, and no claim in scope exercises rejection of invalid
text, so validation is modelled as the identity on the byte sequence. -/
def stringC : ScalarCodec (List Nat) :=
  bytesC

theorem lawful_bytesC : LawfulScalar bytesC := by
  constructor
  · intro s hs rest
    have hlen : s.length < 2 ^ 64 := by
      have := (Bool.and_eq_true _ _).mp hs
      simpa using this.2
    have hdv : decodeVarint (encodeVarint s.length ++ (s ++ rest))
        = some (s.length, s ++ rest) := decodeVarint_encodeVarint hlen _
    have hle : s.length ≤ (s ++ rest).length := by simp
    calc bytesC.dec (bytesC.enc s ++ rest)
        = (match decodeVarint (encodeVarint s.length ++ (s ++ rest)) with
            | none => none
            | some (n, bs1) =>
              if n ≤ bs1.length then some (bs1.take n, bs1.drop n) else none) := by
            simp only [bytesC, List.append_assoc]
      _ = if s.length ≤ (s ++ rest).length then
            some ((s ++ rest).take s.length, (s ++ rest).drop s.length)
          else none := by rw [hdv]
      _ = some (s, rest) := by
            rw [if_pos hle, List.take_left, List.drop_left]
  · intro s _
    simp only [bytesC]
    intro hnil
    exact encodeVarint_ne_nil _ (List.append_eq_nil.mp hnil).1
  · intro s
    simp [bytesC, varintSize_eq_length]

theorem lawful_stringC : LawfulScalar stringC :=
  lawful_bytesC

theorem itemBytes_length (it : Item) :
    (itemBytes it).length = varintSize (it.tag * 8 + it.wt.code) + it.payload.length := by
  simp [itemBytes, encodeTag, varintSize_eq_length]

/-- Modelled from the spec: a singular field with default suppression
(`MaybeDefault<FieldEncoder<Tag, C>>` of the test schemas): bound to one
tag; on encode the field is omitted entirely when the value equals the
declared default; on decode a new occurrence overwrites the slot
(section 4.3). -/
def singularField {α : Type} [DecidableEq α] (tag : Nat) (C : ScalarCodec α) :
    FieldsCodec α where
  isTarget t := t == tag
  dflt := C.dflt
  items v := if v = C.dflt then [] else [⟨tag, C.wt, C.enc v⟩]
  decodeF _ _ wt bs := if wt = C.wt then C.dec bs else none
  sizeF v := if v = C.dflt then 0 else varintSize (tag * 8 + C.wt.code) + C.sizeS v
  good := C.good

/-- Modelled from the spec: a field without default suppression
(`FieldEncoder<Tag, C>` not wrapped in `MaybeDefault`), as used for the
key and value fields of one map entry, which the concrete entry bytes of
`map_test_encoder_works` show to be emitted even at default value
(section 4.5). -/
def alwaysField {α : Type} (tag : Nat) (C : ScalarCodec α) : FieldsCodec α where
  isTarget t := t == tag
  dflt := C.dflt
  items v := [⟨tag, C.wt, C.enc v⟩]
  decodeF _ _ wt bs := if wt = C.wt then C.dec bs else none
  sizeF v := varintSize (tag * 8 + C.wt.code) + C.sizeS v
  good := C.good

/-- Modelled from the spec: a repeated field (`Repeated<F, Vec<T>>`): every
occurrence of the bound tag is decoded and appended in arrival order;
encode emits one tag plus payload per element in sequence order
(section 4.4). -/
def repeatedField {α : Type} (tag : Nat) (C : ScalarCodec α) : FieldsCodec (List α) where
  isTarget t := t == tag
  dflt := []
  items l := l.map (fun v => ⟨tag, C.wt, C.enc v⟩)
  decodeF s _ wt bs := if wt = C.wt then (C.dec bs).map (fun p => (s ++ [p.1], p.2)) else none
  sizeF l := (l.map (fun v => varintSize (tag * 8 + C.wt.code) + C.sizeS v)).sum
  good l := l.all C.good

/-- Modelled from the spec: sequential composition of two field codecs
(the `Fields<(..., ...)>` tuples): encode concatenates the component
encodings in declared order; decode hands the source to the first
component whose `is_target(tag)` holds (section 4.7). -/
def pairF {α β : Type} (A : FieldsCodec α) (B : FieldsCodec β) : FieldsCodec (α × β) where
  isTarget t := A.isTarget t || B.isTarget t
  dflt := (A.dflt, B.dflt)
  items v := A.items v.1 ++ B.items v.2
  decodeF s t wt bs :=
    if A.isTarget t then (A.decodeF s.1 t wt bs).map (fun p => ((p.1, s.2), p.2))
    else (B.decodeF s.2 t wt bs).map (fun p => ((s.1, p.1), p.2))
  sizeF v := A.sizeF v.1 + B.sizeF v.2
  good v := A.good v.1 && B.good v.2

theorem lawful_singularField {α : Type} [DecidableEq α] (tag : Nat) (C : ScalarCodec α)
    (htag : tag < 2 ^ 29) (hC : LawfulScalar C) : LawfulFields (singularField tag C) := by
  constructor
  · intro v hv
    by_cases hd : v = C.dflt
    · have hitems : (singularField tag C).items v = [] := by
        simp [singularField, hd]
      rw [hitems, hd]
      exact DecItems.nil _
    · have hitems : (singularField tag C).items v = [⟨tag, C.wt, C.enc v⟩] := by
        simp [singularField, hd]
      rw [hitems]
      refine DecItems.cons _ _ _ _ _ (by simp [singularField]) htag ?_ (DecItems.nil _)
      intro rest
      show (if C.wt = C.wt then C.dec (C.enc v ++ rest) else none) = some (v, rest)
      rw [if_pos rfl]
      exact hC.dec_enc v hv rest
  · intro v
    by_cases hd : v = C.dflt
    · simp [singularField, hd, encodeMessage, itemsBytes]
    · simp only [singularField, encodeMessage, if_neg hd, itemsBytes, List.append_nil]
      rw [itemBytes_length]
      simp [hC.size_eq]

theorem lawful_alwaysField {α : Type} (tag : Nat) (C : ScalarCodec α)
    (htag : tag < 2 ^ 29) (hC : LawfulScalar C) : LawfulFields (alwaysField tag C) := by
  constructor
  · intro v hv
    refine DecItems.cons _ _ _ _ _ (by simp [alwaysField]) htag ?_ (DecItems.nil _)
    intro rest
    show (if C.wt = C.wt then C.dec (C.enc v ++ rest) else none) = some (v, rest)
    rw [if_pos rfl]
    exact hC.dec_enc v hv rest
  · intro v
    simp only [alwaysField, encodeMessage, itemsBytes, List.append_nil]
    rw [itemBytes_length]
    simp [hC.size_eq]

theorem repeatedField_decItems {α : Type} (tag : Nat) (C : ScalarCodec α)
    (htag : tag < 2 ^ 29) (hC : LawfulScalar C) :
    ∀ (l : List α), l.all C.good = true → ∀ s : List α,
      DecItems (repeatedField tag C) s (l.map (fun v => ⟨tag, C.wt, C.enc v⟩)) (s ++ l) := by
  intro l
  induction l with
  | nil =>
    intro _ s
    simpa using DecItems.nil (F := repeatedField tag C) s
  | cons v l ih =>
    intro hall s
    have hv : C.good v = true := by
      simp only [List.all_cons, Bool.and_eq_true] at hall
      exact hall.1
    have hl : l.all C.good = true := by
      simp only [List.all_cons, Bool.and_eq_true] at hall
      exact hall.2
    simp only [List.map_cons]
    have hassoc : s ++ v :: l = (s ++ [v]) ++ l := by simp
    rw [hassoc]
    refine DecItems.cons _ _ _ _ _ (by simp [repeatedField]) htag ?_ (ih hl (s ++ [v]))
    intro rest
    show (if C.wt = C.wt then
        (C.dec (C.enc v ++ rest)).map (fun p => (s ++ [p.1], p.2)) else none)
      = some (s ++ [v], rest)
    rw [if_pos rfl, hC.dec_enc v hv rest]
    rfl

theorem lawful_repeatedField {α : Type} (tag : Nat) (C : ScalarCodec α)
    (htag : tag < 2 ^ 29) (hC : LawfulScalar C) : LawfulFields (repeatedField tag C) := by
  constructor
  · intro l hl
    have h := repeatedField_decItems tag C htag hC l hl []
    simpa [repeatedField] using h
  · intro l
    induction l with
    | nil => simp [repeatedField, encodeMessage, itemsBytes]
    | cons v l ih =>
      simp only [repeatedField, encodeMessage, List.map_cons, itemsBytes, List.map,
        List.sum_cons] at ih ⊢
      rw [List.length_append, itemBytes_length, ih]
      simp [hC.size_eq]

theorem decItems_pair_left {α β : Type} (A : FieldsCodec α) (B : FieldsCodec β)
    {s s2 : α} {its : List Item} (h : DecItems A s its s2) (t : β) :
    DecItems (pairF A B) (s, t) its (s2, t) := by
  induction h with
  | nil s => exact DecItems.nil _
  | cons s it u its u3 htarget htag hdec hrest ih =>
    refine DecItems.cons _ _ _ _ _ (by simp [pairF, htarget]) htag ?_ ih
    intro rest
    show (if A.isTarget it.tag then
        (A.decodeF s it.tag it.wt (it.payload ++ rest)).map (fun p => ((p.1, t), p.2))
      else (B.decodeF t it.tag it.wt (it.payload ++ rest)).map (fun p => ((s, p.1), p.2)))
      = some ((u, t), rest)
    rw [if_pos (by rw [htarget])]
    rw [hdec rest]
    rfl

theorem decItems_pair_right {α β : Type} (A : FieldsCodec α) (B : FieldsCodec β)
    (htags : ∀ u, B.isTarget u = true → A.isTarget u = false)
    {s s2 : β} {its : List Item} (h : DecItems B s its s2) (t : α) :
    DecItems (pairF A B) (t, s) its (t, s2) := by
  induction h with
  | nil s => exact DecItems.nil _
  | cons s it u its u3 htarget htag hdec hrest ih =>
    refine DecItems.cons _ _ _ _ _ (by simp [pairF, htarget]) htag ?_ ih
    intro rest
    show (if A.isTarget it.tag then
        (A.decodeF t it.tag it.wt (it.payload ++ rest)).map (fun p => ((p.1, s), p.2))
      else (B.decodeF s it.tag it.wt (it.payload ++ rest)).map (fun p => ((t, p.1), p.2)))
      = some ((t, u), rest)
    rw [if_neg (by rw [htags it.tag htarget]; exact Bool.false_ne_true)]
    rw [hdec rest]
    rfl

theorem lawful_pairF {α β : Type} (A : FieldsCodec α) (B : FieldsCodec β)
    (hA : LawfulFields A) (hB : LawfulFields B)
    (htags : ∀ u, B.isTarget u = true → A.isTarget u = false) :
    LawfulFields (pairF A B) := by
  constructor
  · intro v hv
    obtain ⟨ha, hb⟩ : A.good v.1 = true ∧ B.good v.2 = true := by
      have := hv
      simp only [pairF, Bool.and_eq_true] at this
      exact this
    have h1 := decItems_pair_left A B (hA.complete v.1 ha) B.dflt
    have h2 := decItems_pair_right A B htags (hB.complete v.2 hb) v.1
    have h3 := DecItems.append h1 h2
    have hitems : (pairF A B).items v = A.items v.1 ++ B.items v.2 := rfl
    have hdflt : (pairF A B).dflt = (A.dflt, B.dflt) := rfl
    rw [hitems, hdflt]
    exact h3
  · intro v
    have h : (pairF A B).sizeF v = A.sizeF v.1 + B.sizeF v.2 := rfl
    rw [h, hA.size_eq, hB.size_eq]
    simp only [encodeMessage, pairF]
    rw [itemsBytes_append]
    simp

/-- Modelled from the spec: an embedded message as a leaf codec
(`MessageFieldEncoder`/`MessageFieldDecoder`): a varint length prefix
computed ahead of the body by size precomputation, followed by the body;
decode reads the length, opens the bounded sub-source of exactly that many
bytes and runs the nested message decoder over it (sections 4.1, 4.7
and 5). -/
def messageC {σ : Type} (F : FieldsCodec σ) : ScalarCodec σ where
  wt := .lengthDelimited
  dflt := F.dflt
  enc v := encodeVarint (encodeMessage F v).length ++ encodeMessage F v
  dec bs :=
    match decodeVarint bs with
    | none => none
    | some (n, bs1) =>
      if n ≤ bs1.length then
        match runFieldsAux F n F.dflt (bs1.take n) with
        | none => none
        | some v => some (v, bs1.drop n)
      else none
  sizeS v := varintSize (F.sizeF v) + F.sizeF v
  good v := F.good v && decide ((encodeMessage F v).length < 2 ^ 64)

theorem lawful_messageC {σ : Type} (F : FieldsCodec σ) (hF : LawfulFields F) :
    LawfulScalar (messageC F) := by
  constructor
  · intro v hv rest
    obtain ⟨hg, hlen⟩ : F.good v = true ∧ (encodeMessage F v).length < 2 ^ 64 := by
      simpa [messageC, Bool.and_eq_true, decide_eq_true_eq] using hv
    have hdv : decodeVarint (encodeVarint (encodeMessage F v).length
        ++ (encodeMessage F v ++ rest))
        = some ((encodeMessage F v).length, encodeMessage F v ++ rest) :=
      decodeVarint_encodeVarint hlen _
    have hrun : runFieldsAux F (encodeMessage F v).length F.dflt (encodeMessage F v)
        = some v := runFieldsAux_decItems F (hF.complete v hg) _ le_rfl
    calc (messageC F).dec ((messageC F).enc v ++ rest)
        = (match decodeVarint (encodeVarint (encodeMessage F v).length
              ++ (encodeMessage F v ++ rest)) with
           | none => none
           | some (n, bs1) =>
             if n ≤ bs1.length then
               match runFieldsAux F n F.dflt (bs1.take n) with
               | none => none
               | some w => some (w, bs1.drop n)
             else none) := by simp only [messageC, List.append_assoc]
      _ = if (encodeMessage F v).length ≤ (encodeMessage F v ++ rest).length then
            match runFieldsAux F (encodeMessage F v).length F.dflt
                ((encodeMessage F v ++ rest).take (encodeMessage F v).length) with
            | none => none
            | some w => some (w, (encodeMessage F v ++ rest).drop (encodeMessage F v).length)
          else none := by rw [hdv]
      _ = some (v, rest) := by
            rw [if_pos (by simp), List.take_left, List.drop_left, hrun]
  · intro v _
    show encodeVarint (encodeMessage F v).length ++ encodeMessage F v ≠ []
    intro hnil
    exact encodeVarint_ne_nil _ (List.append_eq_nil.mp hnil).1
  · intro v
    show varintSize (F.sizeF v) + F.sizeF v
        = (encodeVarint (encodeMessage F v).length ++ encodeMessage F v).length
    rw [hF.size_eq v]
    simp [varintSize_eq_length]

/-- Modelled from the spec: decoding the contents of one packed blob — the
scalar decoder is invoked repeatedly until the bounded blob is exactly
exhausted; leftover bytes that do not form one more complete element are
the `IncompletePacked` error (section 4.4).  The fuel argument makes the
recursion structural; the blob length is a sufficient bound because every
element consumes at least one byte. -/
def decodePackedBlob {α : Type} (C : ScalarCodec α) : Nat → List Nat → Option (List α)
  | _, [] => some []
  | 0, _ :: _ => none
  | fuel + 1, b :: bs =>
    match C.dec (b :: bs) with
    | none => none
    | some p => (decodePackedBlob C fuel p.2).map (fun l => p.1 :: l)

/-- Modelled from the spec: a packed repeated scalar field
(`PackedFieldEncoder`/`PackedFieldDecoder`): encode concatenates the
element encodings with no per-element tags and wraps them as one
length-delimited blob (nothing at all for an empty sequence, so that an
all-defaults message encodes to zero bytes); decode accepts the packed
length-delimited form and also ordinary occurrences with the scalar wire
type, merging both into one sequence (section 4.4). -/
def packedField {α : Type} (tag : Nat) (C : ScalarCodec α) : FieldsCodec (List α) where
  isTarget t := t == tag
  dflt := []
  items l :=
    match l with
    | [] => []
    | _ :: _ =>
      [⟨tag, .lengthDelimited, encodeVarint (l.flatMap C.enc).length ++ l.flatMap C.enc⟩]
  decodeF s _ wt bs :=
    if wt = WireType.lengthDelimited then
      match decodeVarint bs with
      | none => none
      | some (n, bs1) =>
        if n ≤ bs1.length then
          match decodePackedBlob C n (bs1.take n) with
          | none => none
          | some vs => some (s ++ vs, bs1.drop n)
        else none
    else if wt = C.wt then (C.dec bs).map (fun p => (s ++ [p.1], p.2))
    else none
  sizeF l :=
    match l with
    | [] => 0
    | _ :: _ =>
      varintSize (tag * 8 + WireType.lengthDelimited.code)
        + varintSize (l.map C.sizeS).sum + (l.map C.sizeS).sum
  good l := l.all C.good && decide ((l.flatMap C.enc).length < 2 ^ 64)

theorem length_le_flatMap_enc {α : Type} (C : ScalarCodec α) (hC : LawfulScalar C) :
    ∀ l : List α, l.all C.good = true → l.length ≤ (l.flatMap C.enc).length := by
  intro l
  induction l with
  | nil => intro _; simp
  | cons v l ih =>
    intro hall
    obtain ⟨hv, hl⟩ : C.good v = true ∧ l.all C.good = true := by
      simpa [List.all_cons, Bool.and_eq_true] using hall
    have h1 : 1 ≤ (C.enc v).length := by
      cases hE : C.enc v with
      | nil => exact absurd hE (hC.enc_ne v hv)
      | cons b bb => simp
    have h2 := ih hl
    simp only [List.flatMap_cons, List.length_append, List.length_cons]
    omega

theorem sum_sizeS_eq_length_flatMap {α : Type} (C : ScalarCodec α) (hC : LawfulScalar C) :
    ∀ l : List α, (l.map C.sizeS).sum = (l.flatMap C.enc).length := by
  intro l
  induction l with
  | nil => simp
  | cons v l ih =>
    simp only [List.map_cons, List.sum_cons, List.flatMap_cons, List.length_append, ih,
      hC.size_eq]

theorem decodePackedBlob_flatMap {α : Type} (C : ScalarCodec α) (hC : LawfulScalar C) :
    ∀ (l : List α) (fuel : Nat), l.all C.good = true → l.length ≤ fuel →
      decodePackedBlob C fuel (l.flatMap C.enc) = some l := by
  intro l
  induction l with
  | nil =>
    intro fuel _ _
    have h : ([] : List α).flatMap C.enc = [] := rfl
    rw [h]
    cases fuel <;> rfl
  | cons v l ih =>
    intro fuel hall hlen
    obtain ⟨hv, hl⟩ : C.good v = true ∧ l.all C.good = true := by
      simpa [List.all_cons, Bool.and_eq_true] using hall
    rw [List.length_cons] at hlen
    cases fuel with
    | zero => omega
    | succ f =>
      obtain ⟨b, bb, hE⟩ : ∃ b bb, C.enc v = b :: bb := by
        cases hE : C.enc v with
        | nil => exact absurd hE (hC.enc_ne v hv)
        | cons b bb => exact ⟨b, bb, rfl⟩
      have hcons : (v :: l).flatMap C.enc = b :: (bb ++ l.flatMap C.enc) := by
        rw [List.flatMap_cons, hE]
        rfl
      rw [hcons]
      show (match C.dec (b :: (bb ++ l.flatMap C.enc)) with
            | none => none
            | some p => (decodePackedBlob C f p.2).map (fun l2 => p.1 :: l2)) = some (v :: l)
      have hdec : C.dec (b :: (bb ++ l.flatMap C.enc)) = some (v, l.flatMap C.enc) := by
        have hshape : b :: (bb ++ l.flatMap C.enc) = C.enc v ++ l.flatMap C.enc := by
          rw [hE]
          rfl
        rw [hshape]
        exact hC.dec_enc v hv _
      rw [hdec]
      show (decodePackedBlob C f (l.flatMap C.enc)).map (fun l2 => v :: l2) = some (v :: l)
      rw [ih f hl (by omega)]
      rfl

theorem lawful_packedField {α : Type} (tag : Nat) (C : ScalarCodec α)
    (htag : tag < 2 ^ 29) (hC : LawfulScalar C) : LawfulFields (packedField tag C) := by
  constructor
  · intro l hv
    obtain ⟨hall, hblob⟩ : l.all C.good = true ∧ (l.flatMap C.enc).length < 2 ^ 64 := by
      simpa [packedField, Bool.and_eq_true, decide_eq_true_eq] using hv
    cases l with
    | nil => exact DecItems.nil _
    | cons v l0 =>
      refine DecItems.cons _ _ _ _ _ (by simp [packedField]) htag ?_ (DecItems.nil _)
      intro rest
      have hdv : decodeVarint (encodeVarint ((v :: l0).flatMap C.enc).length
          ++ ((v :: l0).flatMap C.enc ++ rest))
          = some (((v :: l0).flatMap C.enc).length, (v :: l0).flatMap C.enc ++ rest) :=
        decodeVarint_encodeVarint hblob _
      have hblobdec : decodePackedBlob C ((v :: l0).flatMap C.enc).length
          ((v :: l0).flatMap C.enc) = some (v :: l0) :=
        decodePackedBlob_flatMap C hC (v :: l0) _ hall (length_le_flatMap_enc C hC _ hall)
      show (if WireType.lengthDelimited = WireType.lengthDelimited then
          match decodeVarint ((encodeVarint ((v :: l0).flatMap C.enc).length
              ++ (v :: l0).flatMap C.enc) ++ rest) with
          | none => none
          | some (n, bs1) =>
            if n ≤ bs1.length then
              match decodePackedBlob C n (bs1.take n) with
              | none => none
              | some vs => some (([] : List α) ++ vs, bs1.drop n)
            else none
        else if WireType.lengthDelimited = C.wt then
          (C.dec ((encodeVarint ((v :: l0).flatMap C.enc).length
              ++ (v :: l0).flatMap C.enc) ++ rest)).map
            (fun p => (([] : List α) ++ [p.1], p.2))
        else none) = some (v :: l0, rest)
      rw [if_pos rfl, List.append_assoc, hdv]
      show (if ((v :: l0).flatMap C.enc).length ≤ ((v :: l0).flatMap C.enc ++ rest).length then
          match decodePackedBlob C ((v :: l0).flatMap C.enc).length
              (((v :: l0).flatMap C.enc ++ rest).take ((v :: l0).flatMap C.enc).length) with
          | none => none
          | some vs => some (([] : List α) ++ vs,
              ((v :: l0).flatMap C.enc ++ rest).drop ((v :: l0).flatMap C.enc).length)
        else none) = some (v :: l0, rest)
      rw [if_pos (by simp), List.take_left, List.drop_left, hblobdec]
      rfl
  · intro l
    cases l with
    | nil => rfl
    | cons v l0 =>
      show varintSize (tag * 8 + WireType.lengthDelimited.code)
          + varintSize ((v :: l0).map C.sizeS).sum + ((v :: l0).map C.sizeS).sum
          = (itemsBytes [⟨tag, .lengthDelimited,
              encodeVarint ((v :: l0).flatMap C.enc).length ++ (v :: l0).flatMap C.enc⟩]).length
      rw [sum_sizeS_eq_length_flatMap C hC]
      simp only [itemsBytes, List.append_nil]
      rw [itemBytes_length]
      simp only [varintSize_eq_length, List.length_append]
      omega

/-- Modelled from the spec: the map-backing insert contract — insert a
key/value pair with overwrite on duplicate key, last write wins
(sections 4.5 and 9). -/
def mapInsert {κ ν : Type} [DecidableEq κ] (l : List (κ × ν)) (k : κ) (v : ν) :
    List (κ × ν) :=
  if l.any (fun p => p.1 == k) then l.map (fun p => if p.1 = k then (k, v) else p)
  else l ++ [(k, v)]

/-- Modelled from the spec: the two-field key/value entry sub-message of a
map field — field 1 the key, field 2 the value, both emitted
unconditionally (section 4.5, the entry bytes of
`map_test_encoder_works`). -/
def mapEntryC {κ ν : Type} (K : ScalarCodec κ) (V : ScalarCodec ν) : ScalarCodec (κ × ν) :=
  messageC (pairF (alwaysField 1 K) (alwaysField 2 V))

theorem lawful_mapEntryC {κ ν : Type} (K : ScalarCodec κ) (V : ScalarCodec ν)
    (hK : LawfulScalar K) (hV : LawfulScalar V) : LawfulScalar (mapEntryC K V) := by
  refine lawful_messageC _ (lawful_pairF _ _ (lawful_alwaysField 1 K (by norm_num) hK)
    (lawful_alwaysField 2 V (by norm_num) hV) ?_)
  intro t ht
  have ht2 : (t == 2) = true := ht
  have heq : t = 2 := by simpa using ht2
  subst heq
  rfl

/-- Modelled from the spec: a map field
(`MapFieldEncoder`/`MapFieldDecoder`): represented as a repeated embedded
two-field entry message; encode emits one entry sub-message per pair in
backing-container iteration order; decode accumulates entries with
last-write-wins insert (section 4.5). -/
def mapField {κ ν : Type} [DecidableEq κ] (tag : Nat) (K : ScalarCodec κ)
    (V : ScalarCodec ν) : FieldsCodec (List (κ × ν)) where
  isTarget t := t == tag
  dflt := []
  items l := l.map (fun kv => ⟨tag, .lengthDelimited, (mapEntryC K V).enc kv⟩)
  decodeF s _ wt bs :=
    if wt = WireType.lengthDelimited then
      ((mapEntryC K V).dec bs).map (fun p => (mapInsert s p.1.1 p.1.2, p.2))
    else none
  sizeF l := (l.map (fun kv => varintSize (tag * 8 + WireType.lengthDelimited.code)
      + (mapEntryC K V).sizeS kv)).sum
  good l := l.all (mapEntryC K V).good && decide ((l.map Prod.fst).Nodup)

theorem mapInsert_of_not_mem {κ ν : Type} [DecidableEq κ] (l : List (κ × ν)) (k : κ) (v : ν)
    (h : ∀ p ∈ l, p.1 ≠ k) : mapInsert l k v = l ++ [(k, v)] := by
  have hany : l.any (fun p => p.1 == k) = false := by
    rw [List.any_eq_false]
    intro p hp
    simpa using h p hp
  simp [mapInsert, hany]

theorem mapField_decItems {κ ν : Type} [DecidableEq κ] (tag : Nat) (K : ScalarCodec κ)
    (V : ScalarCodec ν) (htag : tag < 2 ^ 29) (hK : LawfulScalar K) (hV : LawfulScalar V) :
    ∀ l : List (κ × ν), l.all (mapEntryC K V).good = true → (l.map Prod.fst).Nodup →
      ∀ s : List (κ × ν), (∀ p ∈ l, ∀ q ∈ s, p.1 ≠ q.1) →
        DecItems (mapField tag K V) s
          (l.map (fun kv => ⟨tag, .lengthDelimited, (mapEntryC K V).enc kv⟩)) (s ++ l) := by
  intro l
  induction l with
  | nil =>
    intro _ _ s _
    simpa using DecItems.nil (F := mapField tag K V) s
  | cons kv l ih =>
    intro hall hnodup s hdisj
    obtain ⟨hkv, hl⟩ : (mapEntryC K V).good kv = true ∧ l.all (mapEntryC K V).good = true := by
      simpa [List.all_cons, Bool.and_eq_true] using hall
    have hnodup2 := hnodup
    simp only [List.map_cons, List.nodup_cons] at hnodup2
    have hnodup_tail : (l.map Prod.fst).Nodup := hnodup2.2
    have hhead_not_mem : kv.1 ∉ l.map Prod.fst := hnodup2.1
    simp only [List.map_cons]
    have hassoc : s ++ kv :: l = (s ++ [kv]) ++ l := by simp
    rw [hassoc]
    refine DecItems.cons _ _ (s ++ [kv]) _ _ (by simp [mapField]) htag ?_ ?_
    · intro rest
      show (if WireType.lengthDelimited = WireType.lengthDelimited then
          ((mapEntryC K V).dec ((mapEntryC K V).enc kv ++ rest)).map
            (fun p => (mapInsert s p.1.1 p.1.2, p.2))
        else none) = some (s ++ [kv], rest)
      rw [if_pos rfl, (lawful_mapEntryC K V hK hV).dec_enc kv hkv rest]
      have hins : mapInsert s kv.1 kv.2 = s ++ [(kv.1, kv.2)] := by
        apply mapInsert_of_not_mem
        intro q hq
        exact fun hqk => (hdisj kv (by simp) q hq) hqk.symm
      show some (mapInsert s kv.1 kv.2, rest) = some (s ++ [kv], rest)
      rw [hins]
    · refine ih hl hnodup_tail (s ++ [kv]) ?_
      intro p hp q hq
      rcases List.mem_append.mp hq with hqs | hqkv
      · exact hdisj p (by simp [hp]) q hqs
      · have : q = kv := by simpa using hqkv
        subst this
        intro hpq
        exact hhead_not_mem (by
          rw [← hpq]
          exact List.mem_map_of_mem Prod.fst hp)

theorem lawful_mapField {κ ν : Type} [DecidableEq κ] (tag : Nat) (K : ScalarCodec κ)
    (V : ScalarCodec ν) (htag : tag < 2 ^ 29) (hK : LawfulScalar K) (hV : LawfulScalar V) :
    LawfulFields (mapField tag K V) := by
  constructor
  · intro l hv
    obtain ⟨hall, hnodup⟩ : l.all (mapEntryC K V).good = true ∧ (l.map Prod.fst).Nodup := by
      simpa [mapField, Bool.and_eq_true, decide_eq_true_eq] using hv
    have h := mapField_decItems tag K V htag hK hV l hall hnodup [] (by simp)
    simpa [mapField] using h
  · intro l
    induction l with
    | nil => rfl
    | cons kv l ih =>
      simp only [mapField, encodeMessage, List.map_cons, itemsBytes, List.sum_cons] at ih ⊢
      rw [List.length_append, itemBytes_length, ih]
      simp only [(lawful_mapEntryC K V hK hV).size_eq]

/-- Modelled from the spec: `Optional<Oneof<(A, B)>>` over two branch
codecs, branch A bound to `tagA` and branch B to `tagB`; at most one
branch is populated; on decode the branch of the most recently encountered
tag replaces whatever was active before; encode writes exactly the active
branch, or nothing when unset (section 4.6). -/
def oneofField {α β : Type} (tagA : Nat) (CA : ScalarCodec α) (tagB : Nat)
    (CB : ScalarCodec β) : FieldsCodec (Option (α ⊕ β)) where
  isTarget t := t == tagA || t == tagB
  dflt := none
  items v :=
    match v with
    | none => []
    | some (.inl a) => [⟨tagA, CA.wt, CA.enc a⟩]
    | some (.inr b) => [⟨tagB, CB.wt, CB.enc b⟩]
  decodeF _ t wt bs :=
    if t == tagA then
      if wt = CA.wt then (CA.dec bs).map (fun p => (some (Sum.inl p.1), p.2)) else none
    else
      if wt = CB.wt then (CB.dec bs).map (fun p => (some (Sum.inr p.1), p.2)) else none
  sizeF v :=
    match v with
    | none => 0
    | some (.inl a) => varintSize (tagA * 8 + CA.wt.code) + CA.sizeS a
    | some (.inr b) => varintSize (tagB * 8 + CB.wt.code) + CB.sizeS b
  good v :=
    match v with
    | none => true
    | some (.inl a) => CA.good a
    | some (.inr b) => CB.good b

theorem lawful_oneofField {α β : Type} (tagA : Nat) (CA : ScalarCodec α) (tagB : Nat)
    (CB : ScalarCodec β) (hA : tagA < 2 ^ 29) (hB : tagB < 2 ^ 29) (hAB : tagA ≠ tagB)
    (hCA : LawfulScalar CA) (hCB : LawfulScalar CB) :
    LawfulFields (oneofField tagA CA tagB CB) := by
  constructor
  · intro v hv
    match v with
    | none => exact DecItems.nil _
    | some (.inl a) =>
      have ha : CA.good a = true := hv
      refine DecItems.cons _ _ _ _ _ (by simp [oneofField]) hA ?_ (DecItems.nil _)
      intro rest
      show (if tagA == tagA then
          if CA.wt = CA.wt then
            (CA.dec (CA.enc a ++ rest)).map (fun p => (some (Sum.inl p.1), p.2))
          else none
        else
          if CA.wt = CB.wt then
            (CB.dec (CA.enc a ++ rest)).map (fun p => (some (Sum.inr p.1), p.2))
          else none) = some (some (Sum.inl a), rest)
      rw [if_pos (by simp), if_pos rfl, hCA.dec_enc a ha rest]
      rfl
    | some (.inr b) =>
      have hb : CB.good b = true := hv
      refine DecItems.cons _ _ _ _ _ (by simp [oneofField]) hB ?_ (DecItems.nil _)
      intro rest
      have hne : ¬ ((tagB == tagA) = true) := by
        simp only [beq_iff_eq]
        exact fun h => hAB h.symm
      show (if tagB == tagA then
          if CB.wt = CA.wt then
            (CA.dec (CB.enc b ++ rest)).map (fun p => (some (Sum.inl p.1), p.2))
          else none
        else
          if CB.wt = CB.wt then
            (CB.dec (CB.enc b ++ rest)).map (fun p => (some (Sum.inr p.1), p.2))
          else none) = some (some (Sum.inr b), rest)
      rw [if_neg hne, if_pos rfl, hCB.dec_enc b hb rest]
      rfl
  · intro v
    match v with
    | none => rfl
    | some (.inl a) =>
      show varintSize (tagA * 8 + CA.wt.code) + CA.sizeS a
          = (itemsBytes [⟨tagA, CA.wt, CA.enc a⟩]).length
      simp only [itemsBytes, List.append_nil]
      rw [itemBytes_length, hCA.size_eq]
    | some (.inr b) =>
      show varintSize (tagB * 8 + CB.wt.code) + CB.sizeS b
          = (itemsBytes [⟨tagB, CB.wt, CB.enc b⟩]).length
      simp only [itemsBytes, List.append_nil]
      rw [itemBytes_length, hCB.size_eq]

/-- The `SearchRequest` message schema of the crate docs and tests
(`lib.rs`): string `query` tagged 1, int32 `page_number` tagged 2, int32
`result_per_page` tagged 3, all singular with default suppression.
Strings are carried as their utf8 byte sequences. -/
def searchRequestF : FieldsCodec (List Nat × (Int × Int)) :=
  pairF (singularField 1 stringC) (pairF (singularField 2 int32C) (singularField 3 int32C))

/-- One `Result` message of the `SearchResponse` test schema (`lib.rs`):
string `url` tagged 1, string `title` tagged 2, repeated string `snippets`
tagged 3. -/
def resultF : FieldsCodec (List Nat × (List Nat × List (List Nat))) :=
  pairF (singularField 1 stringC) (pairF (singularField 2 stringC) (repeatedField 3 stringC))

/-- The `SearchResponse` test schema (`lib.rs`): one repeated embedded
`Result` message field tagged 1. -/
def searchResponseF : FieldsCodec (List (List Nat × (List Nat × List (List Nat)))) :=
  repeatedField 1 (messageC resultF)

/-- The packed `Test` schema of the encoding guide (`lib.rs`,
`test4_encoder_works`): repeated packed int32 field tagged 4. -/
def test4F : FieldsCodec (List Int) :=
  packedField 4 int32C

/-- The `MapTest` schema (`lib.rs`): map from uint64 to bool tagged 5,
backed by a pair sequence iterated in order. -/
def mapTestF : FieldsCodec (List (Nat × Bool)) :=
  mapField 5 uint64C boolC

/-- The `OneofTest` schema (`lib.rs`): a oneof of string `name` tagged 4
and embedded `SearchRequest` message `request` tagged 6. -/
def oneofTestF : FieldsCodec (Option (List Nat ⊕ (List Nat × (Int × Int)))) :=
  oneofField 4 stringC 6 (messageC searchRequestF)

/-- The `EmptyRepeatedTest` schema (`lib.rs`): repeated string tagged 1. -/
def emptyRepeatedF : FieldsCodec (List (List Nat)) :=
  repeatedField 1 stringC

/-- The `Seconds` schema (`lib.rs`): one uint64 field tagged 1 built with
the message macro, with default suppression. -/
def secondsF : FieldsCodec Nat :=
  singularField 1 uint64C

/-- A message schema exercising every supported scalar kind and every
combinator shape at once: singular fields of all thirteen scalar kinds,
a repeated field, a packed field, a map field, a oneof with a nested
message branch and a singular nested message field. -/
def allKindsF :=
  pairF (singularField 1 boolC)
  (pairF (singularField 2 uint32C)
  (pairF (singularField 3 uint64C)
  (pairF (singularField 4 int32C)
  (pairF (singularField 5 int64C)
  (pairF (singularField 6 sint32C)
  (pairF (singularField 7 sint64C)
  (pairF (singularField 8 fixed32C)
  (pairF (singularField 9 sfixed32C)
  (pairF (singularField 10 floatC)
  (pairF (singularField 11 fixed64C)
  (pairF (singularField 12 sfixed64C)
  (pairF (singularField 13 doubleC)
  (pairF (singularField 14 bytesC)
  (pairF (singularField 15 stringC)
  (pairF (repeatedField 16 stringC)
  (pairF (packedField 17 int32C)
  (pairF (mapField 18 uint64C boolC)
  (pairF (oneofField 19 stringC 20 (messageC searchRequestF))
         (singularField 21 (messageC searchRequestF))))))))))))))))))))

theorem htags_single {β : Type} (B : FieldsCodec β) (k : Nat) (hk : B.isTarget k = false) :
    ∀ u, B.isTarget u = true → (u == k) = false := by
  intro u hu
  by_cases h : u = k
  · subst h
    rw [hu] at hk
    exact absurd hk (by simp)
  · simpa using h

theorem lawful_searchRequestF : LawfulFields searchRequestF := by
  refine lawful_pairF _ _ (lawful_singularField 1 stringC (by norm_num) lawful_stringC) ?_ ?_
  · exact lawful_pairF _ _ (lawful_singularField 2 int32C (by norm_num) lawful_int32C)
      (lawful_singularField 3 int32C (by norm_num) lawful_int32C)
      (htags_single _ 2 (by decide))
  · exact htags_single _ 1 (by decide)

theorem lawful_resultF : LawfulFields resultF := by
  refine lawful_pairF _ _ (lawful_singularField 1 stringC (by norm_num) lawful_stringC) ?_ ?_
  · exact lawful_pairF _ _ (lawful_singularField 2 stringC (by norm_num) lawful_stringC)
      (lawful_repeatedField 3 stringC (by norm_num) lawful_stringC)
      (htags_single _ 2 (by decide))
  · exact htags_single _ 1 (by decide)

theorem lawful_searchResponseF : LawfulFields searchResponseF :=
  lawful_repeatedField 1 (messageC resultF) (by norm_num) (lawful_messageC _ lawful_resultF)

theorem lawful_test4F : LawfulFields test4F :=
  lawful_packedField 4 int32C (by norm_num) lawful_int32C

theorem lawful_mapTestF : LawfulFields mapTestF :=
  lawful_mapField 5 uint64C boolC (by norm_num) lawful_uint64C lawful_boolC

theorem lawful_oneofTestF : LawfulFields oneofTestF :=
  lawful_oneofField 4 stringC 6 (messageC searchRequestF) (by norm_num) (by norm_num)
    (by norm_num) lawful_stringC (lawful_messageC _ lawful_searchRequestF)

theorem lawful_emptyRepeatedF : LawfulFields emptyRepeatedF :=
  lawful_repeatedField 1 stringC (by norm_num) lawful_stringC

theorem lawful_secondsF : LawfulFields secondsF :=
  lawful_singularField 1 uint64C (by norm_num) lawful_uint64C

theorem lawful_allKindsF : LawfulFields allKindsF := by
  have hmsg : LawfulScalar (messageC searchRequestF) :=
    lawful_messageC _ lawful_searchRequestF
  have h21 := lawful_singularField 21 (messageC searchRequestF) (by norm_num) hmsg
  have h1920 := lawful_oneofField 19 stringC 20 (messageC searchRequestF) (by norm_num)
    (by norm_num) (by norm_num) lawful_stringC hmsg
  have hL19 := lawful_pairF _ _ h1920 h21 (by
    intro u hu
    have hu2 : (u == 21) = true := hu
    have heq : u = 21 := by simpa using hu2
    subst heq
    rfl)
  have hL18 := lawful_pairF _ _
    (lawful_mapField 18 uint64C boolC (by norm_num) lawful_uint64C lawful_boolC) hL19
    (htags_single _ 18 (by decide))
  have hL17 := lawful_pairF _ _
    (lawful_packedField 17 int32C (by norm_num) lawful_int32C) hL18
    (htags_single _ 17 (by decide))
  have hL16 := lawful_pairF _ _
    (lawful_repeatedField 16 stringC (by norm_num) lawful_stringC) hL17
    (htags_single _ 16 (by decide))
  have hL15 := lawful_pairF _ _
    (lawful_singularField 15 stringC (by norm_num) lawful_stringC) hL16
    (htags_single _ 15 (by decide))
  have hL14 := lawful_pairF _ _
    (lawful_singularField 14 bytesC (by norm_num) lawful_bytesC) hL15
    (htags_single _ 14 (by decide))
  have hL13 := lawful_pairF _ _
    (lawful_singularField 13 doubleC (by norm_num) (lawful_fixedC _ _)) hL14
    (htags_single _ 13 (by decide))
  have hL12 := lawful_pairF _ _
    (lawful_singularField 12 sfixed64C (by norm_num) lawful_sfixed64C) hL13
    (htags_single _ 12 (by decide))
  have hL11 := lawful_pairF _ _
    (lawful_singularField 11 fixed64C (by norm_num) (lawful_fixedC _ _)) hL12
    (htags_single _ 11 (by decide))
  have hL10 := lawful_pairF _ _
    (lawful_singularField 10 floatC (by norm_num) (lawful_fixedC _ _)) hL11
    (htags_single _ 10 (by decide))
  have hL9 := lawful_pairF _ _
    (lawful_singularField 9 sfixed32C (by norm_num) lawful_sfixed32C) hL10
    (htags_single _ 9 (by decide))
  have hL8 := lawful_pairF _ _
    (lawful_singularField 8 fixed32C (by norm_num) (lawful_fixedC _ _)) hL9
    (htags_single _ 8 (by decide))
  have hL7 := lawful_pairF _ _
    (lawful_singularField 7 sint64C (by norm_num) lawful_sint64C) hL8
    (htags_single _ 7 (by decide))
  have hL6 := lawful_pairF _ _
    (lawful_singularField 6 sint32C (by norm_num) lawful_sint32C) hL7
    (htags_single _ 6 (by decide))
  have hL5 := lawful_pairF _ _
    (lawful_singularField 5 int64C (by norm_num) lawful_int64C) hL6
    (htags_single _ 5 (by decide))
  have hL4 := lawful_pairF _ _
    (lawful_singularField 4 int32C (by norm_num) lawful_int32C) hL5
    (htags_single _ 4 (by decide))
  have hL3 := lawful_pairF _ _
    (lawful_singularField 3 uint64C (by norm_num) lawful_uint64C) hL4
    (htags_single _ 3 (by decide))
  have hL2 := lawful_pairF _ _
    (lawful_singularField 2 uint32C (by norm_num) lawful_uint32C) hL3
    (htags_single _ 2 (by decide))
  have hL1 := lawful_pairF _ _
    (lawful_singularField 1 boolC (by norm_num) lawful_boolC) hL2
    (htags_single _ 1 (by decide))
  exact hL1

theorem runFieldsAux_nil (F : FieldsCodec σ) (fuel : Nat) (s : σ) :
    runFieldsAux F fuel s [] = some s := by
  cases fuel <;> rfl

/-- One in-schema field occurrence decodes exactly its payload from any
state: the shape of a well-formed known-tag occurrence inside a byte
stream. -/
def ExactDec (F : FieldsCodec σ) (it : Item) : Prop :=
  ∀ s, ∃ s2, ∀ rest, F.decodeF s it.tag it.wt (it.payload ++ rest) = some (s2, rest)

/-- Skipping one occurrence of wire type `wt` consumes exactly `payload`:
the shape of a well-formed occurrence of that wire type. -/
def SkipExact (wt : WireType) (payload : List Nat) : Prop :=
  ∀ rest, skipField wt (payload ++ rest) = some rest

theorem stepField_skip (F : FieldsCodec σ) (s : σ) (it : Item) (rest : List Nat)
    (htag : it.tag < 2 ^ 29) (hT : F.isTarget it.tag = false)
    (hskip : SkipExact it.wt it.payload) :
    stepField F s (itemBytes it ++ rest) = some (s, rest) := by
  have hcode := WireType.code_lt it.wt
  have hlt : it.tag * 8 + it.wt.code < 2 ^ 64 := by omega
  have hdv : decodeVarint (encodeVarint (it.tag * 8 + it.wt.code) ++ (it.payload ++ rest))
      = some (it.tag * 8 + it.wt.code, it.payload ++ rest) := decodeVarint_encodeVarint hlt _
  have hmod : (it.tag * 8 + it.wt.code) % 8 = it.wt.code := by omega
  have hdiv : (it.tag * 8 + it.wt.code) / 8 = it.tag := by omega
  simp only [itemBytes, encodeTag, List.append_assoc]
  simp only [stepField, hdv, hmod, hdiv, wireTypeOfCode_code, hT]
  rw [if_neg Bool.false_ne_true, hskip rest]

theorem runFieldsAux_filter (F : FieldsCodec σ) :
    ∀ (its : List Item) (s : σ) (fuel1 fuel2 : Nat),
      (itemsBytes its).length ≤ fuel1 →
      (itemsBytes (its.filter (fun it => F.isTarget it.tag))).length ≤ fuel2 →
      (∀ it ∈ its, it.tag < 2 ^ 29 ∧
        (if F.isTarget it.tag then ExactDec F it else SkipExact it.wt it.payload)) →
      runFieldsAux F fuel1 s (itemsBytes its)
        = runFieldsAux F fuel2 s (itemsBytes (its.filter (fun it => F.isTarget it.tag))) := by
  intro its
  induction its with
  | nil =>
    intro s fuel1 fuel2 _ _ _
    simp only [List.filter_nil, itemsBytes]
    rw [runFieldsAux_nil, runFieldsAux_nil]
  | cons it its ih =>
    intro s fuel1 fuel2 h1 h2 hwf
    obtain ⟨htag, hcond⟩ := hwf it (by simp)
    have hwf2 : ∀ it2 ∈ its, it2.tag < 2 ^ 29 ∧
        (if F.isTarget it2.tag then ExactDec F it2 else SkipExact it2.wt it2.payload) :=
      fun it2 hit2 => hwf it2 (by simp [hit2])
    obtain ⟨b, l, hb⟩ : ∃ b l, itemBytes it = b :: l := by
      cases hE : itemBytes it with
      | nil => exact absurd hE (itemBytes_ne_nil it)
      | cons b l => exact ⟨b, l, rfl⟩
    have hlen1 : (itemsBytes (it :: its)).length
        = (itemBytes it).length + (itemsBytes its).length := by
      show (itemBytes it ++ itemsBytes its).length = _
      simp
    have hpos : 1 ≤ (itemBytes it).length := by rw [hb]; simp
    cases hT : F.isTarget it.tag with
    | true =>
      have hex : ExactDec F it := by
        rw [hT] at hcond
        simpa using hcond
      obtain ⟨s2, hs2⟩ := hex s
      have hfil : (it :: its).filter (fun it2 => F.isTarget it2.tag)
          = it :: its.filter (fun it2 => F.isTarget it2.tag) := by
        simp [List.filter_cons, hT]
      rw [hfil]
      have hlen2 : (itemsBytes (it :: its.filter (fun it2 => F.isTarget it2.tag))).length
          = (itemBytes it).length
            + (itemsBytes (its.filter (fun it2 => F.isTarget it2.tag))).length := by
        show (itemBytes it ++ _).length = _
        simp
      rw [hfil, hlen2] at h2
      cases fuel1 with
      | zero =>
        exfalso
        rw [hlen1] at h1
        omega
      | succ f1 =>
        cases fuel2 with
        | zero =>
          exfalso
          omega
        | succ f2 =>
          have hstep1 : stepField F s (itemBytes it ++ itemsBytes its)
              = some (s2, itemsBytes its) := stepField_item F it _ htag hT hs2
          have hstep2 : stepField F s
              (itemBytes it ++ itemsBytes (its.filter (fun it2 => F.isTarget it2.tag)))
              = some (s2, itemsBytes (its.filter (fun it2 => F.isTarget it2.tag))) :=
            stepField_item F it _ htag hT hs2
          rw [show itemsBytes (it :: its) = itemBytes it ++ itemsBytes its from rfl]
          rw [show itemsBytes (it :: its.filter (fun it2 => F.isTarget it2.tag))
              = itemBytes it ++ itemsBytes (its.filter (fun it2 => F.isTarget it2.tag))
            from rfl]
          rw [hb, List.cons_append, List.cons_append]
          simp only [runFieldsAux]
          rw [← List.cons_append, ← hb, hstep1]
          rw [← List.cons_append, ← hb, hstep2]
          exact ih s2 f1 f2 (by rw [hlen1] at h1; omega) (by omega) hwf2
    | false =>
      have hsk : SkipExact it.wt it.payload := by
        rw [hT] at hcond
        simpa using hcond
      have hfil : (it :: its).filter (fun it2 => F.isTarget it2.tag)
          = its.filter (fun it2 => F.isTarget it2.tag) := by
        simp [List.filter_cons, hT]
      rw [hfil]
      rw [hfil] at h2
      cases fuel1 with
      | zero =>
        exfalso
        rw [hlen1] at h1
        omega
      | succ f1 =>
        have hstep1 : stepField F s (itemBytes it ++ itemsBytes its)
            = some (s, itemsBytes its) := stepField_skip F s it _ htag hT hsk
        rw [show itemsBytes (it :: its) = itemBytes it ++ itemsBytes its from rfl]
        rw [hb, List.cons_append]
        simp only [runFieldsAux]
        rw [← List.cons_append, ← hb, hstep1]
        exact ih s f1 fuel2 (by rw [hlen1] at h1; omega) h2 hwf2

theorem skipExact_varint (n : Nat) (h : n < 2 ^ 64) : SkipExact .varint (encodeVarint n) := by
  intro rest
  show (decodeVarint (encodeVarint n ++ rest)).map (fun p => p.2) = some rest
  rw [decodeVarint_encodeVarint h rest]
  rfl

theorem skipExact_fixed32 (payload : List Nat) (h : payload.length = 4) :
    SkipExact .fixed32 payload := by
  intro rest
  show (if 4 ≤ (payload ++ rest).length then some ((payload ++ rest).drop 4) else none)
    = some rest
  rw [if_pos (by simp [h]), drop_len_append _ _ _ h]

theorem skipExact_fixed64 (payload : List Nat) (h : payload.length = 8) :
    SkipExact .fixed64 payload := by
  intro rest
  show (if 8 ≤ (payload ++ rest).length then some ((payload ++ rest).drop 8) else none)
    = some rest
  rw [if_pos (by simp [h]), drop_len_append _ _ _ h]

theorem skipExact_lengthDelimited (blob : List Nat) (h : blob.length < 2 ^ 64) :
    SkipExact .lengthDelimited (encodeVarint blob.length ++ blob) := by
  intro rest
  show (match decodeVarint ((encodeVarint blob.length ++ blob) ++ rest) with
        | none => none
        | some (n, bs1) => if n ≤ bs1.length then some (bs1.drop n) else none) = some rest
  rw [List.append_assoc, decodeVarint_encodeVarint h]
  show (if blob.length ≤ (blob ++ rest).length then some ((blob ++ rest).drop blob.length)
    else none) = some rest
  rw [if_pos (by simp), List.drop_left]

/-- Decode-side length discipline: a field decoder never returns more
bytes than it was handed. -/
def StepBounded (F : FieldsCodec σ) : Prop :=
  ∀ s t wt bs s2 bs2, F.decodeF s t wt bs = some (s2, bs2) → bs2.length ≤ bs.length

/-- Chunk stability: a field decoder that succeeds on a byte list succeeds
identically when more bytes are appended, consuming the same prefix — the
determinism required of a resumable decoder by spec section 4.8. -/
def ChunkStable (F : FieldsCodec σ) : Prop :=
  ∀ s t wt bs s2 bs2, F.decodeF s t wt bs = some (s2, bs2) →
    ∀ more, F.decodeF s t wt (bs ++ more) = some (s2, bs2 ++ more)

theorem skipField_length {wt : WireType} {bs bs2 : List Nat}
    (h : skipField wt bs = some bs2) : bs2.length ≤ bs.length := by
  cases wt with
  | varint =>
    simp only [skipField, Option.map_eq_some'] at h
    obtain ⟨p, hp, heq⟩ := h
    subst heq
    exact le_of_lt (decodeVarint_length (by rw [hp]))
  | fixed32 =>
    simp only [skipField] at h
    split at h
    · obtain rfl : bs.drop 4 = bs2 := by simpa using h
      simp [List.length_drop]
    · exact absurd h (by simp)
  | fixed64 =>
    simp only [skipField] at h
    split at h
    · obtain rfl : bs.drop 8 = bs2 := by simpa using h
      simp [List.length_drop]
    · exact absurd h (by simp)
  | lengthDelimited =>
    cases hd : decodeVarint bs with
    | none =>
      simp only [skipField, hd] at h
      exact Option.noConfusion h
    | some q =>
      obtain ⟨n, bs1⟩ := q
      simp only [skipField, hd] at h
      have hlen := decodeVarint_length hd
      split at h
      · obtain rfl : bs1.drop n = bs2 := by simpa using h
        simp only [List.length_drop]
        omega
      · exact absurd h (by simp)

theorem skipField_append {wt : WireType} {bs bs2 : List Nat}
    (h : skipField wt bs = some bs2) (more : List Nat) :
    skipField wt (bs ++ more) = some (bs2 ++ more) := by
  cases wt with
  | varint =>
    simp only [skipField, Option.map_eq_some'] at h ⊢
    obtain ⟨p, hp, heq⟩ := h
    subst heq
    exact ⟨(p.1, p.2 ++ more), decodeVarint_append more (by rw [hp]), rfl⟩
  | fixed32 =>
    simp only [skipField] at h ⊢
    split at h
    · rename_i hle
      obtain rfl : bs.drop 4 = bs2 := by simpa using h
      rw [if_pos (by simp; omega), List.drop_append_of_le_length hle]
    · exact absurd h (by simp)
  | fixed64 =>
    simp only [skipField] at h ⊢
    split at h
    · rename_i hle
      obtain rfl : bs.drop 8 = bs2 := by simpa using h
      rw [if_pos (by simp; omega), List.drop_append_of_le_length hle]
    · exact absurd h (by simp)
  | lengthDelimited =>
    cases hd : decodeVarint bs with
    | none =>
      simp only [skipField, hd] at h
      exact Option.noConfusion h
    | some q =>
      obtain ⟨n, bs1⟩ := q
      simp only [skipField, hd] at h
      split at h
      · rename_i hle
        obtain rfl : bs1.drop n = bs2 := by simpa using h
        simp only [skipField, decodeVarint_append more hd]
        rw [if_pos (by simp; omega), List.drop_append_of_le_length hle]
      · exact absurd h (by simp)

theorem stepField_length_lt (F : FieldsCodec σ) (hFb : StepBounded F) {s : σ}
    {bs : List Nat} {p : σ × List Nat} (h : stepField F s bs = some p) :
    p.2.length < bs.length := by
  cases hd : decodeVarint bs with
  | none =>
    simp only [stepField, hd] at h
    exact Option.noConfusion h
  | some q =>
    obtain ⟨tv, bs1⟩ := q
    have hq : bs1.length < bs.length := decodeVarint_length hd
    cases hw : wireTypeOfCode (tv % 8) with
    | none =>
      simp only [stepField, hd, hw] at h
      exact Option.noConfusion h
    | some wt =>
      simp only [stepField, hd, hw] at h
      split at h
      · have := hFb s (tv / 8) wt bs1 p.1 p.2 h
        omega
      · cases hsk : skipField wt bs1 with
        | none => rw [hsk] at h; exact absurd h (by simp)
        | some bs2 =>
          rw [hsk] at h
          have hle := skipField_length hsk
          have hp : p = (s, bs2) := by simpa using h.symm
          rw [hp]
          simp only
          omega

theorem stepField_append (F : FieldsCodec σ) (hFs : ChunkStable F) {s : σ}
    {bs : List Nat} {p : σ × List Nat} (h : stepField F s bs = some p) (more : List Nat) :
    stepField F s (bs ++ more) = some (p.1, p.2 ++ more) := by
  cases hd : decodeVarint bs with
  | none =>
    simp only [stepField, hd] at h
    exact Option.noConfusion h
  | some q =>
    obtain ⟨tv, bs1⟩ := q
    cases hw : wireTypeOfCode (tv % 8) with
    | none =>
      simp only [stepField, hd, hw] at h
      exact Option.noConfusion h
    | some wt =>
      simp only [stepField, hd, hw] at h
      simp only [stepField, decodeVarint_append more hd, hw]
      split at h
      · rename_i ht
        rw [if_pos ht]
        exact hFs s (tv / 8) wt bs1 p.1 p.2 h more
      · rename_i ht
        rw [if_neg ht]
        cases hsk : skipField wt bs1 with
        | none => rw [hsk] at h; exact absurd h (by simp)
        | some bs2 =>
          rw [hsk] at h
          rw [skipField_append hsk more]
          have hp : p = (s, bs2) := by simpa using h.symm
          rw [hp]

theorem runFieldsAux_fuel (F : FieldsCodec σ) (hFb : StepBounded F) :
    ∀ (n : Nat) (bs : List Nat), bs.length ≤ n → ∀ (s : σ) (f1 f2 : Nat),
      bs.length ≤ f1 → bs.length ≤ f2 →
      runFieldsAux F f1 s bs = runFieldsAux F f2 s bs := by
  intro n
  induction n with
  | zero =>
    intro bs hbs s f1 f2 _ _
    have hnil : bs = [] := List.eq_nil_of_length_eq_zero (by omega)
    subst hnil
    rw [runFieldsAux_nil, runFieldsAux_nil]
  | succ n ih =>
    intro bs hbs s f1 f2 h1 h2
    cases bs with
    | nil => rw [runFieldsAux_nil, runFieldsAux_nil]
    | cons b l =>
      have hlen : (b :: l).length = l.length + 1 := by simp
      cases f1 with
      | zero => exfalso; rw [hlen] at h1; omega
      | succ g1 =>
        cases f2 with
        | zero => exfalso; rw [hlen] at h2; omega
        | succ g2 =>
          simp only [runFieldsAux]
          cases hstep : stepField F s (b :: l) with
          | none => rfl
          | some p =>
            have hp := stepField_length_lt F hFb hstep
            rw [hlen] at h1 h2 hbs
            exact ih p.2 (by omega) p.1 g1 g2 (by omega) (by omega)

/-- Modelled from the spec: the incremental driver of the resumable
execution contract (section 4.8).  The execution state is the current
decode-loop state paired with the received-but-unconsumed bytes; each feed
appends one chunk and eagerly runs as many complete decode-loop steps as
the buffered bytes allow, so bytes consumed by a completed step leave the
buffer and are never re-requested; the fuel is the buffer length, an upper
bound on the number of completable steps. -/
def drainAux (F : FieldsCodec σ) : Nat → σ × List Nat → σ × List Nat
  | 0, p => p
  | fuel + 1, p =>
    match stepField F p.1 p.2 with
    | none => p
    | some p2 => drainAux F fuel p2

/-- Modelled from the spec: feeding one chunk to a suspended decode
(section 4.8). -/
def feed (F : FieldsCodec σ) (p : σ × List Nat) (chunk : List Nat) : σ × List Nat :=
  drainAux F (p.2 ++ chunk).length (p.1, p.2 ++ chunk)

/-- Modelled from the spec: a full chunked decode — feed every chunk in
order to the resumable driver, then terminate at clean end of input
(section 4.8). -/
def decodeChunked (F : FieldsCodec σ) (chunks : List (List Nat)) : Option σ :=
  runFieldsAux F (chunks.foldl (feed F) (F.dflt, [])).2.length
    (chunks.foldl (feed F) (F.dflt, [])).1 (chunks.foldl (feed F) (F.dflt, [])).2

theorem stepField_nil (F : FieldsCodec σ) (s : σ) : stepField F s [] = none := rfl

theorem drainAux_runFields (F : FieldsCodec σ) (hFb : StepBounded F) (hFs : ChunkStable F) :
    ∀ (fuel : Nat) (p : σ × List Nat) (future : List Nat),
      runFieldsAux F ((drainAux F fuel p).2 ++ future).length (drainAux F fuel p).1
          ((drainAux F fuel p).2 ++ future)
        = runFieldsAux F (p.2 ++ future).length p.1 (p.2 ++ future) := by
  intro fuel
  induction fuel with
  | zero => intro p future; rfl
  | succ f ih =>
    intro p future
    show runFieldsAux F
        ((match stepField F p.1 p.2 with
          | none => p
          | some p2 => drainAux F f p2).2 ++ future).length
        (match stepField F p.1 p.2 with
          | none => p
          | some p2 => drainAux F f p2).1
        ((match stepField F p.1 p.2 with
          | none => p
          | some p2 => drainAux F f p2).2 ++ future)
      = runFieldsAux F (p.2 ++ future).length p.1 (p.2 ++ future)
    cases hstep : stepField F p.1 p.2 with
    | none => rfl
    | some p2 =>
      rw [ih p2 future]
      have hne : p.2 ≠ [] := by
        intro hnil
        rw [hnil, stepField_nil] at hstep
        exact absurd hstep (by simp)
      obtain ⟨b, l, hb⟩ : ∃ b l, p.2 = b :: l := by
        cases hE : p.2 with
        | nil => exact absurd hE hne
        | cons b l => exact ⟨b, l, rfl⟩
      have hstep2 : stepField F p.1 (p.2 ++ future) = some (p2.1, p2.2 ++ future) :=
        stepField_append F hFs hstep future
      have hlt := stepField_length_lt F hFb hstep
      rw [hb, List.cons_append]
      show runFieldsAux F (p2.2 ++ future).length p2.1 (p2.2 ++ future)
        = runFieldsAux F (b :: (l ++ future)).length p.1 (b :: (l ++ future))
      have hlen : (b :: (l ++ future)).length = (l ++ future).length + 1 := by simp
      rw [hlen]
      simp only [runFieldsAux]
      rw [show b :: (l ++ future) = p.2 ++ future from by rw [hb, List.cons_append], hstep2]
      show runFieldsAux F (p2.2 ++ future).length p2.1 (p2.2 ++ future)
        = runFieldsAux F (l ++ future).length p2.1 (p2.2 ++ future)
      exact runFieldsAux_fuel F hFb (p2.2 ++ future).length (p2.2 ++ future) le_rfl
        p2.1 (p2.2 ++ future).length (l ++ future).length le_rfl (by
          have h2 : p2.2.length < (b :: l).length := by rw [← hb]; exact hlt
          simp only [List.length_append, List.length_cons] at h2 ⊢
          omega)

theorem foldl_feed_runFields (F : FieldsCodec σ) (hFb : StepBounded F) (hFs : ChunkStable F) :
    ∀ (chunks : List (List Nat)) (p : σ × List Nat),
      runFieldsAux F (chunks.foldl (feed F) p).2.length (chunks.foldl (feed F) p).1
          (chunks.foldl (feed F) p).2
        = runFieldsAux F (p.2 ++ chunks.flatten).length p.1 (p.2 ++ chunks.flatten) := by
  intro chunks
  induction chunks with
  | nil =>
    intro p
    simp [List.flatten_nil]
  | cons c cs ih =>
    intro p
    show runFieldsAux F (cs.foldl (feed F) (feed F p c)).2.length
        (cs.foldl (feed F) (feed F p c)).1 (cs.foldl (feed F) (feed F p c)).2 = _
    rw [ih (feed F p c)]
    have h := drainAux_runFields F hFb hFs (p.2 ++ c).length (p.1, p.2 ++ c) cs.flatten
    rw [show feed F p c = drainAux F (p.2 ++ c).length (p.1, p.2 ++ c) from rfl]
    rw [h]
    rw [List.flatten_cons, ← List.append_assoc]

theorem stepBounded_secondsF : StepBounded secondsF := by
  intro s t wt bs s2 bs2 h
  have h2 : (if wt = WireType.varint then decodeVarint bs else none) = some (s2, bs2) := h
  split at h2
  · exact le_of_lt (decodeVarint_length h2)
  · exact absurd h2 (by simp)

theorem chunkStable_secondsF : ChunkStable secondsF := by
  intro s t wt bs s2 bs2 h more
  have h2 : (if wt = WireType.varint then decodeVarint bs else none) = some (s2, bs2) := h
  split at h2
  · rename_i hwt
    show (if wt = WireType.varint then decodeVarint (bs ++ more) else none)
      = some (s2, bs2 ++ more)
    rw [if_pos hwt]
    exact decodeVarint_append more h2
  · exact absurd h2 (by simp)

theorem oneof_decItem_left {α β : Type} (tagA : Nat) (CA : ScalarCodec α) (tagB : Nat)
    (CB : ScalarCodec β) (hCA : LawfulScalar CA) {va : α} (hva : CA.good va = true) (s : Option (α ⊕ β)) :
    DecItem (oneofField tagA CA tagB CB) s ⟨tagA, CA.wt, CA.enc va⟩ (some (Sum.inl va)) := by
  intro rest
  show (if tagA == tagA then
      if CA.wt = CA.wt then
        (CA.dec (CA.enc va ++ rest)).map (fun p => (some (Sum.inl p.1), p.2))
      else none
    else
      if CA.wt = CB.wt then
        (CB.dec (CA.enc va ++ rest)).map (fun p => (some (Sum.inr p.1), p.2))
      else none) = some (some (Sum.inl va), rest)
  rw [if_pos (by simp), if_pos rfl, hCA.dec_enc va hva rest]
  rfl

theorem oneof_decItem_right {α β : Type} (tagA : Nat) (CA : ScalarCodec α) (tagB : Nat)
    (CB : ScalarCodec β) (hAB : tagA ≠ tagB) (hCB : LawfulScalar CB) {vb : β}
    (hvb : CB.good vb = true) (s : Option (α ⊕ β)) :
    DecItem (oneofField tagA CA tagB CB) s ⟨tagB, CB.wt, CB.enc vb⟩ (some (Sum.inr vb)) := by
  intro rest
  have hne : ¬ ((tagB == tagA) = true) := by
    simp only [beq_iff_eq]
    exact fun h => hAB h.symm
  show (if tagB == tagA then
      if CB.wt = CA.wt then
        (CA.dec (CB.enc vb ++ rest)).map (fun p => (some (Sum.inl p.1), p.2))
      else none
    else
      if CB.wt = CB.wt then
        (CB.dec (CB.enc vb ++ rest)).map (fun p => (some (Sum.inr p.1), p.2))
      else none) = some (some (Sum.inr vb), rest)
  rw [if_neg hne, if_pos rfl, hCB.dec_enc vb hvb rest]
  rfl

/-- C1: for every supported scalar kind and every combinator shape —
singular fields of all thirteen scalar kinds, repeated, packed, map, oneof
and nested messages, combined in the all-kinds schema and in the concrete
schemas of the crate's test suite — decoding the bytes produced by
encoding a well-formed value `v` yields `v` again:
`decode (encode v) = some v`. -/
theorem c1_round_trip :
    (∀ v, allKindsF.good v = true →
      decodeMessage allKindsF (encodeMessage allKindsF v) = some v)
    ∧ (∀ v, searchRequestF.good v = true →
      decodeMessage searchRequestF (encodeMessage searchRequestF v) = some v)
    ∧ (∀ v, searchResponseF.good v = true →
      decodeMessage searchResponseF (encodeMessage searchResponseF v) = some v)
    ∧ (∀ v, test4F.good v = true → decodeMessage test4F (encodeMessage test4F v) = some v)
    ∧ (∀ v, mapTestF.good v = true →
      decodeMessage mapTestF (encodeMessage mapTestF v) = some v)
    ∧ (∀ v, oneofTestF.good v = true →
      decodeMessage oneofTestF (encodeMessage oneofTestF v) = some v) :=
  ⟨fun v hv => decodeMessage_encodeMessage _ lawful_allKindsF v hv,
   fun v hv => decodeMessage_encodeMessage _ lawful_searchRequestF v hv,
   fun v hv => decodeMessage_encodeMessage _ lawful_searchResponseF v hv,
   fun v hv => decodeMessage_encodeMessage _ lawful_test4F v hv,
   fun v hv => decodeMessage_encodeMessage _ lawful_mapTestF v hv,
   fun v hv => decodeMessage_encodeMessage _ lawful_oneofTestF v hv⟩

theorem c1_round_trip_witness :
    decodeMessage allKindsF (encodeMessage allKindsF
      (true, (300, (5, (-1, (-2, (-5, (3, (7, (-1, (1, (9, (-2, (2, ([1, 2], ([102, 111, 111], ([[97], [98]], ([3, 270, 86942], ([(0, true), (11, false)], (some (Sum.inr ([98, 97, 114], (3, 10))), ([120], (1, 2))))))))))))))))))))))
      = some (true, (300, (5, (-1, (-2, (-5, (3, (7, (-1, (1, (9, (-2, (2, ([1, 2], ([102, 111, 111], ([[97], [98]], ([3, 270, 86942], ([(0, true), (11, false)], (some (Sum.inr ([98, 97, 114], (3, 10))), ([120], (1, 2))))))))))))))))))))) :=
  c1_round_trip.1 _ (by decide)

/-- C2: encoding a message whose fields all equal their declared defaults
produces zero bytes — each combinator contributes no field occurrence at
its default value (default scalar, empty sequence, empty map, unset
oneof), pair composition preserves the property, and the concrete test
schemas encode their all-default values to the empty byte sequence. -/
theorem c2_default_omission :
    (∀ (α : Type) (inst : DecidableEq α) (tag : Nat) (C : ScalarCodec α),
      encodeMessage (singularField tag C) C.dflt = [])
    ∧ (∀ (α : Type) (tag : Nat) (C : ScalarCodec α),
      encodeMessage (repeatedField tag C) [] = [])
    ∧ (∀ (α : Type) (tag : Nat) (C : ScalarCodec α),
      encodeMessage (packedField tag C) [] = [])
    ∧ (∀ (κ ν : Type) (inst : DecidableEq κ) (tag : Nat) (K : ScalarCodec κ)
        (V : ScalarCodec ν), encodeMessage (mapField tag K V) [] = [])
    ∧ (∀ (α β : Type) (tagA : Nat) (CA : ScalarCodec α) (tagB : Nat) (CB : ScalarCodec β),
      encodeMessage (oneofField tagA CA tagB CB) none = [])
    ∧ (∀ (α β : Type) (A : FieldsCodec α) (B : FieldsCodec β),
      encodeMessage A A.dflt = [] → encodeMessage B B.dflt = [] →
      encodeMessage (pairF A B) (pairF A B).dflt = [])
    ∧ encodeMessage searchRequestF searchRequestF.dflt = []
    ∧ encodeMessage secondsF 0 = []
    ∧ encodeMessage allKindsF allKindsF.dflt = [] := by
  refine ⟨?_, ?_, ?_, ?_, ?_, ?_, ?_, ?_, ?_⟩
  · intro α inst tag C
    show itemsBytes (if C.dflt = C.dflt then [] else [⟨tag, C.wt, C.enc C.dflt⟩]) = []
    rw [if_pos rfl]
    rfl
  · intro α tag C
    rfl
  · intro α tag C
    rfl
  · intro κ ν inst tag K V
    rfl
  · intro α β tagA CA tagB CB
    rfl
  · intro α β A B h1 h2
    show itemsBytes (A.items A.dflt ++ B.items B.dflt) = []
    rw [itemsBytes_append]
    rw [show itemsBytes (A.items A.dflt) = [] from h1,
      show itemsBytes (B.items B.dflt) = [] from h2]
    rfl
  · decide
  · decide
  · decide

theorem c2_default_omission_witness :
    encodeMessage (pairF (singularField 1 stringC) (singularField 2 int32C))
      (pairF (singularField 1 stringC) (singularField 2 int32C)).dflt = [] :=
  c2_default_omission.2.2.2.2.2.1 (List Nat) Int (singularField 1 stringC)
    (singularField 2 int32C)
    (c2_default_omission.1 (List Nat) inferInstance 1 stringC)
    (c2_default_omission.1 Int inferInstance 2 int32C)

/-- C3: for every message schema and every well-formed byte stream that
interleaves field occurrences with known tags and occurrences whose tags
match no field of the schema, decoding the stream yields the same message
value as decoding the stream with the unknown-tag occurrences removed;
unknown fields are structurally skipped according to their wire type and
not retained. -/
theorem c3_skip_correctness {σ : Type} (F : FieldsCodec σ) (its : List Item)
    (h : ∀ it ∈ its, it.tag < 2 ^ 29 ∧
      (if F.isTarget it.tag then ExactDec F it else SkipExact it.wt it.payload)) :
    decodeMessage F (itemsBytes its)
      = decodeMessage F (itemsBytes (its.filter (fun it => F.isTarget it.tag))) :=
  runFieldsAux_filter F its F.dflt _ _ le_rfl le_rfl h

theorem c3_skip_correctness_witness :
    decodeMessage searchRequestF (itemsBytes
      [⟨10, .lengthDelimited, [3, 102, 111, 111]⟩, ⟨11, .varint, [3]⟩,
       ⟨12, .fixed32, [10, 1, 2, 3]⟩, ⟨12, .fixed64, [1, 2, 3, 4, 5, 6, 7, 8]⟩])
      = decodeMessage searchRequestF (itemsBytes
          ([⟨10, .lengthDelimited, [3, 102, 111, 111]⟩, ⟨11, .varint, [3]⟩,
            ⟨12, .fixed32, [10, 1, 2, 3]⟩, ⟨12, .fixed64, [1, 2, 3, 4, 5, 6, 7, 8]⟩].filter
            (fun it => searchRequestF.isTarget it.tag)))
    ∧ decodeMessage searchRequestF (itemsBytes
      [⟨10, .lengthDelimited, [3, 102, 111, 111]⟩, ⟨11, .varint, [3]⟩,
       ⟨12, .fixed32, [10, 1, 2, 3]⟩, ⟨12, .fixed64, [1, 2, 3, 4, 5, 6, 7, 8]⟩])
      = some ([], (0, 0)) := by
  constructor
  · refine c3_skip_correctness searchRequestF _ ?_
    intro it hit
    simp only [List.mem_cons, List.not_mem_nil, or_false] at hit
    rcases hit with rfl | rfl | rfl | rfl
    · exact ⟨by norm_num, skipExact_lengthDelimited [102, 111, 111] (by norm_num)⟩
    · exact ⟨by norm_num, skipExact_varint 3 (by norm_num)⟩
    · exact ⟨by norm_num, skipExact_fixed32 [10, 1, 2, 3] rfl⟩
    · exact ⟨by norm_num, skipExact_fixed64 [1, 2, 3, 4, 5, 6, 7, 8] rfl⟩
  · decide

/-- C4: oneof last-wins — decoding a stream with branch A's occurrence
followed by branch B's yields branch B active; decoding A, then B, then A
again yields branch A active carrying the payload of the last A
occurrence; and a well-formed stream containing no branch tag decodes to
the unset oneof. -/
theorem c4_oneof_last_wins {α β : Type} (tagA : Nat) (CA : ScalarCodec α) (tagB : Nat)
    (CB : ScalarCodec β) (hA : tagA < 2 ^ 29) (hB : tagB < 2 ^ 29) (hAB : tagA ≠ tagB)
    (hCA : LawfulScalar CA) (hCB : LawfulScalar CB) (va va2 : α) (vb : β)
    (hva : CA.good va = true) (hva2 : CA.good va2 = true) (hvb : CB.good vb = true) :
    decodeMessage (oneofField tagA CA tagB CB)
        (itemsBytes [⟨tagA, CA.wt, CA.enc va⟩, ⟨tagB, CB.wt, CB.enc vb⟩])
      = some (some (Sum.inr vb))
    ∧ decodeMessage (oneofField tagA CA tagB CB)
        (itemsBytes [⟨tagA, CA.wt, CA.enc va⟩, ⟨tagB, CB.wt, CB.enc vb⟩,
          ⟨tagA, CA.wt, CA.enc va2⟩])
      = some (some (Sum.inl va2))
    ∧ ∀ its : List Item,
        (∀ it ∈ its, it.tag < 2 ^ 29
          ∧ (oneofField tagA CA tagB CB).isTarget it.tag = false
          ∧ SkipExact it.wt it.payload) →
        decodeMessage (oneofField tagA CA tagB CB) (itemsBytes its) = some none := by
  have htA : (oneofField tagA CA tagB CB).isTarget tagA = true := by
    show (tagA == tagA || tagA == tagB) = true
    simp
  have htB : (oneofField tagA CA tagB CB).isTarget tagB = true := by
    show (tagB == tagA || tagB == tagB) = true
    simp
  refine ⟨?_, ?_, ?_⟩
  · refine runFieldsAux_decItems _ ?_ _ le_rfl
    exact DecItems.cons _ _ _ _ _ htA hA (oneof_decItem_left tagA CA tagB CB hCA hva none)
      (DecItems.cons _ _ _ _ _ htB hB (oneof_decItem_right tagA CA tagB CB hAB hCB hvb _)
        (DecItems.nil _))
  · refine runFieldsAux_decItems _ ?_ _ le_rfl
    exact DecItems.cons _ _ _ _ _ htA hA (oneof_decItem_left tagA CA tagB CB hCA hva none)
      (DecItems.cons _ _ _ _ _ htB hB (oneof_decItem_right tagA CA tagB CB hAB hCB hvb _)
        (DecItems.cons _ _ _ _ _ htA hA (oneof_decItem_left tagA CA tagB CB hCA hva2 _)
          (DecItems.nil _)))
  · intro its hits
    have h := runFieldsAux_filter (oneofField tagA CA tagB CB) its none _ _ le_rfl le_rfl
      (fun it hit => ⟨(hits it hit).1, by
        rw [if_neg (by rw [(hits it hit).2.1]; exact Bool.false_ne_true)]
        exact (hits it hit).2.2⟩)
    have hfil : its.filter (fun it => (oneofField tagA CA tagB CB).isTarget it.tag) = [] := by
      rw [List.filter_eq_nil]
      intro it hit
      simp [(hits it hit).2.1]
    rw [hfil] at h
    calc decodeMessage (oneofField tagA CA tagB CB) (itemsBytes its)
        = runFieldsAux (oneofField tagA CA tagB CB) (itemsBytes []).length none
            (itemsBytes []) := h
      _ = some none := runFieldsAux_nil _ _ _

theorem c4_oneof_last_wins_witness :
    decodeMessage oneofTestF [34, 3, 102, 111, 111, 50, 9, 10, 3, 98, 97, 114, 16, 3, 24, 10,
      34, 3, 98, 97, 122] = some (some (Sum.inl [98, 97, 122])) :=
  (c4_oneof_last_wins 4 stringC 6 (messageC searchRequestF) (by norm_num) (by norm_num)
    (by norm_num) lawful_stringC (lawful_messageC _ lawful_searchRequestF)
    [102, 111, 111] [98, 97, 122] ([98, 97, 114], (3, 10))
    (by decide) (by decide) (by decide)).2.1

/-- C5: encoding the packed repeated int32 field [3, 270, 86942] bound to
tag 4 produces exactly the bytes 0x22 0x06 0x03 0x8E 0x02 0x9E 0xA7 0x05,
and decoding exactly those bytes with the packed-field message decoder
yields [3, 270, 86942] again. -/
theorem c5_packed_bytes :
    encodeMessage test4F [3, 270, 86942] = [0x22, 0x06, 0x03, 0x8E, 0x02, 0x9E, 0xA7, 0x05]
    ∧ decodeMessage test4F [0x22, 0x06, 0x03, 0x8E, 0x02, 0x9E, 0xA7, 0x05]
      = some [3, 270, 86942] := by
  constructor
  · decide
  · decide

/-- C6: encoding the uint64-to-bool map field bound to tag 5 holding the
entries (0, true), (11, false), (222, true) in that iteration order
produces exactly [42, 4, 8, 0, 16, 1, 42, 4, 8, 11, 16, 0, 42, 5, 8, 222,
1, 16, 1] — one length-delimited two-field entry sub-message (field 1 the
key, field 2 the value) per entry. -/
theorem c6_map_bytes :
    encodeMessage mapTestF [(0, true), (11, false), (222, true)]
      = [42, 4, 8, 0, 16, 1, 42, 4, 8, 11, 16, 0, 42, 5, 8, 222, 1, 16, 1] := by
  decide

/-- C7: for every byte sequence and every way of splitting it into
contiguous chunks, feeding the chunks one at a time to the resumable
message decoder (resuming after each suspension) yields the same decoded
result as decoding the concatenation in one uninterrupted call; bytes
consumed by a completed step leave the driver's buffer and are never
re-requested. -/
theorem c7_chunked_resumption {σ : Type} (F : FieldsCodec σ) (hFb : StepBounded F)
    (hFs : ChunkStable F) (chunks : List (List Nat)) :
    decodeChunked F chunks = decodeMessage F chunks.flatten := by
  have h := foldl_feed_runFields F hFb hFs chunks (F.dflt, [])
  show runFieldsAux F (chunks.foldl (feed F) (F.dflt, [])).2.length
      (chunks.foldl (feed F) (F.dflt, [])).1 (chunks.foldl (feed F) (F.dflt, [])).2
    = decodeMessage F chunks.flatten
  rw [h]
  rfl

theorem c7_chunked_resumption_witness :
    decodeChunked secondsF [[0x08], [0x5C]] = decodeMessage secondsF [0x08, 0x5C]
    ∧ decodeMessage secondsF [0x08, 0x5C] = some 92 :=
  ⟨c7_chunked_resumption secondsF stepBounded_secondsF chunkStable_secondsF [[0x08], [0x5C]],
   by decide⟩

/-- C8: the bool codec decodes any varint whose value is non-zero (not
only the value 1) to true and the varint 0 to false; on encode it always
emits exactly the single byte 0 or 1. -/
theorem c8_bool_codec :
    (∀ n, n < 2 ^ 64 → n ≠ 0 → ∀ rest, boolC.dec (encodeVarint n ++ rest) = some (true, rest))
    ∧ (∀ rest, boolC.dec (encodeVarint 0 ++ rest) = some (false, rest))
    ∧ (∀ b, (boolC.enc b = [0] ∨ boolC.enc b = [1]) ∧ (boolC.enc b).length = 1) := by
  refine ⟨?_, ?_, ?_⟩
  · intro n hn hne rest
    calc boolC.dec (encodeVarint n ++ rest)
        = (decodeVarint (encodeVarint n ++ rest)).map (fun p => (decide (p.1 ≠ 0), p.2)) := rfl
      _ = (some (n, rest)).map (fun p => (decide (p.1 ≠ 0), p.2)) := by
            rw [decodeVarint_encodeVarint hn rest]
      _ = some (decide (n ≠ 0), rest) := rfl
      _ = some (true, rest) := by simp [hne]
  · intro rest
    calc boolC.dec (encodeVarint 0 ++ rest)
        = (decodeVarint (encodeVarint 0 ++ rest)).map (fun p => (decide (p.1 ≠ 0), p.2)) := rfl
      _ = (some ((0 : Nat), rest)).map (fun p => (decide (p.1 ≠ 0), p.2)) := by
            rw [decodeVarint_encodeVarint (by norm_num) rest]
      _ = some (false, rest) := rfl
  · intro b
    cases b with
    | false => exact ⟨Or.inl rfl, rfl⟩
    | true => exact ⟨Or.inr rfl, rfl⟩

theorem c8_bool_codec_witness :
    boolC.dec (encodeVarint 300) = some (true, [])
    ∧ boolC.dec (encodeVarint 0) = some (false, []) := by
  constructor
  · have h := c8_bool_codec.1 300 (by norm_num) (by norm_num) []
    simpa using h
  · have h := c8_bool_codec.2.1 []
    simpa using h

/-- C9: the encoded size of a value is computed algebraically, before any
bytes are written, and equals the exact number of bytes the encoder
subsequently produces — for the all-kinds schema covering every scalar
kind and combinator shape, for the nested-message response schema whose
length prefixes require size precomputation, and for the varint
primitive. -/
theorem c9_encoded_size :
    (∀ v, allKindsF.sizeF v = (encodeMessage allKindsF v).length)
    ∧ (∀ v, searchResponseF.sizeF v = (encodeMessage searchResponseF v).length)
    ∧ ∀ n, varintSize n = (encodeVarint n).length :=
  ⟨lawful_allKindsF.size_eq, lawful_searchResponseF.size_eq, varintSize_eq_length⟩

/-- C10: decoding the empty byte input succeeds for every message decoder
and yields the message value with every field slot at its default —
concretely the empty string and zero integers of `SearchRequest`, the
empty repeated sequence, the zero of `Seconds` and the unset oneof. -/
theorem c10_empty_input_defaults :
    (∀ (σ : Type) (F : FieldsCodec σ), decodeMessage F [] = some F.dflt)
    ∧ decodeMessage searchRequestF [] = some ([], (0, 0))
    ∧ decodeMessage emptyRepeatedF [] = some []
    ∧ decodeMessage secondsF [] = some 0
    ∧ decodeMessage oneofTestF [] = some none :=
  ⟨fun σ F => runFieldsAux_nil F 0 F.dflt,
   runFieldsAux_nil _ 0 _, runFieldsAux_nil _ 0 _, runFieldsAux_nil _ 0 _,
   runFieldsAux_nil _ 0 _⟩

end Pbcodec
